import Mathlib

/-!
# cashshuffle: message transport and dispatch (`server/messages.go`, `server/proto.go`)

A shallow embedding of the frame reader (`processMessages`, `breakScan`,
`sendToSignedChan`), of the event processor (`startSignedChan`,
`processReceivedMessage`) and of the writer (`writeMessage`).

Conventions of the embedding:

* a byte is a `Nat` (only compared, never computed with); a `bytes.Buffer` is the
  list of its unread bytes;
* `bufio.Scanner` with `bufio.ScanBytes` over the connection is the list of bytes
  the connection still delivers, one token per byte, together with the read error
  that ends the stream (`none` for `io.EOF`, which `scanner.Err()` reports as nil)
  and the number of bytes the `Read` that returned it brought along;
* the channel `c` is the list of items enqueued so far, oldest first; `c <- data`
  appends (the consumer is assumed to keep draining, so a send does not block
  forever), and the consumer loop is run on the list of items the channel delivers;
* `proto.Unmarshal`, `proto.Marshal`, `conn.Write` and `conn.Close` are parameters;
  the collaborators of `processReceivedMessage` are parameters gathered in `Collab`;
* `debugMode` output and the writes to `os.Stderr` have no effect on the state
  and are left out.
-/

namespace Server

/-- A byte of the stream. -/
abbrev Byte := Nat

/-- The Go constant `maxMessageLength = 64 * 1024`. -/
def maxMessageLength : Nat := 64 * 1024

/-- The Go variable `breakBytes = []byte{226, 143, 142}`. -/
def breakBytes : List Byte := [226, 143, 142]

/-- The Go function `breakScan`: with `len := buf.Len()`, when `len > 3` the last
three bytes are compared with `breakBytes` index by index (`false` at the first
difference, `true` after the loop); otherwise `false`. The indices are in range
under the guard, so `getD` never takes its default. -/
def breakScan (buf : List Byte) : Bool :=
  let len := buf.length
  if len > 3 then
    let payload := buf
    let bs := [payload.getD (len - 3) 0, payload.getD (len - 2) 0, payload.getD (len - 1) 0]
    (List.range bs.length).all fun i => bs.getD i 0 == breakBytes.getD i 0
  else
    false

/-- How the inner loop `for scanner.Scan() { ... }` of `processMessages` is left. -/
inductive ScanExit where
  /-- The guard `len(b.String()) > maxMessageLength` fired: `return`. -/
  | tooLong
  /-- The call `breakScan(b)` was true: `b.Truncate(b.Len() - 3); break`. -/
  | delimiter
  /-- The call `scanner.Scan()` returned false: the stream is exhausted. -/
  | exhausted
  deriving DecidableEq

/-- State after the inner loop: how it was left, the buffer `b`, and the bytes the
scanner has not delivered yet. -/
structure ScanResult where
  exit : ScanExit
  b : List Byte
  rest : List Byte
  deriving DecidableEq

/-- The inner loop of `processMessages`, started with buffer `b` on the bytes the
scanner still delivers. Each pass takes one byte `x` (`scanner.Bytes()`), checks the
length of `b` before writing, writes, then asks `breakScan`. -/
def scanLoop (b : List Byte) : List Byte → ScanResult
  | [] => ⟨ScanExit.exhausted, b, []⟩
  | x :: rest =>
    if b.length > maxMessageLength then
      ⟨ScanExit.tooLong, b, rest⟩
    else
      let b1 := b ++ [x]
      if breakScan b1 then
        ⟨ScanExit.delimiter, b1.take (b1.length - 3), rest⟩
      else
        scanLoop b1 rest

/-- The Go struct `signedConn`: one signed unit with its connection and the tracker. -/
structure signedConn (σ κ τ : Type) where
  message : σ
  conn : κ
  tracker : τ
  deriving DecidableEq

/-- The Go function `sendToSignedChan`. Returns the error (`none` for nil), the
buffer after the deferred `b.Reset()`, and the channel contents. On an
`Unmarshal` error nothing is sent; otherwise the `range pdata.Packet` loop sends
one `signedConn` per unit. -/
def sendToSignedChan {σ κ τ ε : Type} (unmarshal : List Byte → Except ε (List σ))
    (b : List Byte) (conn : κ) (c : List (signedConn σ κ τ)) (t : τ) :
    Option ε × List Byte × List (signedConn σ κ τ) :=
  match unmarshal b with
  | Except.error err => (some err, [], c)
  | Except.ok packet =>
    (none, [], packet.foldl (fun ch signed => ch ++ [⟨signed, conn, t⟩]) c)

/-- Why `processMessages` stopped reading the connection. -/
inductive Exit (ε : Type) where
  /-- The `return` under "message too long". -/
  | messageTooLong
  /-- The `break` under `scanner.Err() != nil`. -/
  | scanError (err : ε)
  /-- The `break` under `b.String() == ""`. -/
  | emptyMessage
  /-- The `break` under a non-nil error of `sendToSignedChan`. -/
  | sendError (err : ε)
  deriving DecidableEq

/-- What a run of `processMessages` did: the buffers handed to `sendToSignedChan`
in call order, the channel contents at the end, why it stopped, and the bytes
never taken from the scanner. -/
structure Run (σ κ τ ε : Type) where
  handed : List (List Byte)
  chan : List (signedConn σ κ τ)
  exit : Exit ε
  unread : List Byte
  deriving DecidableEq

/-- The size of the buffer `bufio.Scanner` reads into (`startBufSize` of package
`bufio`). With `bufio.ScanBytes` every token is one byte, the buffer is never grown,
and no `Read` brings more bytes than this. -/
def scannerBufferSize : Nat := 4096

/-- The call `scanner.Err()` after the inner loop. The stream ends with a `Read`
that returns `final` (`none` for `io.EOF`, which `Err` reports as nil) together
with its last `pending` bytes. The scanner records the error when that `Read`
returns and goes on handing out the bytes it brought, so `Err` gives the error
once `Scan` has returned false, and also after a delimiter break when fewer bytes
are left than that `Read` brought. -/
def scannerErr {ε : Type} (final : Option ε) (pending : Nat) (r : ScanResult) : Option ε :=
  if r.exit = ScanExit.exhausted ∨ r.rest.length < min pending scannerBufferSize then
    final
  else
    none

/-- The outer `for` loop of `processMessages`, with a bound on the number of
passes (`none` when the bound is used up). `final` and `pending` say how the stream
ends, see `scannerErr`. Each pass starts with a fresh buffer. -/
def processLoop {σ κ τ ε : Type} (unmarshal : List Byte → Except ε (List σ))
    (conn : κ) (t : τ) (final : Option ε) (pending : Nat) :
    Nat → List Byte → List (List Byte) → List (signedConn σ κ τ) → Option (Run σ κ τ ε)
  | 0, _, _, _ => none
  | fuel + 1, input, handed, c =>
    let r := scanLoop [] input
    if r.exit = ScanExit.tooLong then
      some ⟨handed, c, Exit.messageTooLong, r.rest⟩
    else
      match scannerErr final pending r with
      | some err => some ⟨handed, c, Exit.scanError err, r.rest⟩
      | none =>
        if r.b = [] then
          some ⟨handed, c, Exit.emptyMessage, r.rest⟩
        else
          match sendToSignedChan unmarshal r.b conn c t with
          | (some err, _, c1) => some ⟨handed ++ [r.b], c1, Exit.sendError err, r.rest⟩
          | (none, _, c1) =>
            processLoop unmarshal conn t final pending fuel r.rest (handed ++ [r.b]) c1

/-- The Go function `processMessages` on a connection that delivers `input` and
then ends with `final`, returned by a `Read` together with the last `pending`
bytes. A pass of the outer loop that goes on has taken at least one byte, and one
more pass sees the exhausted stream, so `input.length + 2` passes are enough
(`processLoop_isSome`). -/
def processMessages {σ κ τ ε : Type} (unmarshal : List Byte → Except ε (List σ))
    (conn : κ) (c : List (signedConn σ κ τ)) (t : τ) (input : List Byte) (final : Option ε)
    (pending : Nat) : Option (Run σ κ τ ε) :=
  processLoop unmarshal conn t final pending (input.length + 2) input [] c

/-- The Go struct `playerData`, of which only the field `pool` is read here. -/
structure playerData where
  pool : Int
  deriving DecidableEq

/-- The methods `processReceivedMessage` calls, which live in other files of the
package, as functions on the state `ω` they read and change (tracker contents,
connections, what was written to peers). An error is `some`, nil is `none`. -/
structure Collab (σ κ τ ε ω : Type) where
  getTrackerData : τ → κ → ω → Option playerData
  getPoolSize : τ → Int → ω → Int
  poolSize : τ → ω → Int
  registerClient : signedConn σ κ τ → ω → Option ε × ω
  announceStart : signedConn σ κ τ → ω → ω
  verifyMessage : signedConn σ κ τ → ω → Option ε × ω
  broadcastMessage : signedConn σ κ τ → ω → Option ε × ω

/-- One call made by `processReceivedMessage`, with its receiver. -/
inductive Call (σ κ τ : Type) where
  | registerClient (sc : signedConn σ κ τ)
  | announceStart (sc : signedConn σ κ τ)
  | verifyMessage (sc : signedConn σ κ τ)
  | broadcastMessage (sc : signedConn σ κ τ)
  deriving DecidableEq

/-- How `processReceivedMessage` ends: it returns an error or nil, or it reads
`playerData.pool` through a nil pointer. -/
inductive Outcome (ε : Type) where
  | returned (err : Option ε)
  | nilDereference
  deriving DecidableEq

/-- The Go method `processReceivedMessage`. Returns how it ended, the state after,
and the calls it made in order. -/
def processReceivedMessage {σ κ τ ε ω : Type} (k : Collab σ κ τ ε ω)
    (sc : signedConn σ κ τ) (w : ω) : Outcome ε × ω × List (Call σ κ τ) :=
  if (k.getTrackerData sc.tracker sc.conn w).isNone then
    match k.registerClient sc w with
    | (some err, w1) => (Outcome.returned (some err), w1, [Call.registerClient sc])
    | (none, w1) =>
      match k.getTrackerData sc.tracker sc.conn w1 with
      | none => (Outcome.nilDereference, w1, [Call.registerClient sc])
      | some playerData =>
        if k.getPoolSize sc.tracker playerData.pool w1 = k.poolSize sc.tracker w1 then
          (Outcome.returned none, k.announceStart sc w1,
            [Call.registerClient sc, Call.announceStart sc])
        else
          (Outcome.returned none, w1, [Call.registerClient sc])
  else
    match k.verifyMessage sc w with
    | (some err, w1) => (Outcome.returned (some err), w1, [Call.verifyMessage sc])
    | (none, w1) =>
      match k.broadcastMessage sc w1 with
      | (err, w2) => (Outcome.returned err, w2, [Call.verifyMessage sc, Call.broadcastMessage sc])

/-- One pass of the loop of `startSignedChan`: the item taken from the channel,
the error `processReceivedMessage` returned for it, the calls that method made, and
the connections the loop closed in that pass. -/
structure Pass (σ κ τ ε : Type) where
  item : signedConn σ κ τ
  err : Option ε
  calls : List (Call σ κ τ)
  closed : List κ
  deriving DecidableEq

/-- What the loop of `startSignedChan` did on the items it was given: its passes
in order, whether it was stopped by a nil dereference, and the state it reached. -/
structure Served (σ κ τ ε ω : Type) where
  passes : List (Pass σ κ τ ε)
  crashed : Bool
  state : ω

/-- The Go function `startSignedChan` on the items the channel delivers, in channel
order; `close` is `sc.conn.Close()`. The loop has no exit: when the items are used
up it waits on the channel, which is where the run ends here. A nil dereference in
`processReceivedMessage` ends the loop, since nothing recovers from it. -/
def startSignedChan {σ κ τ ε ω : Type} (k : Collab σ κ τ ε ω) (close : κ → ω → ω) :
    List (signedConn σ κ τ) → ω → Served σ κ τ ε ω
  | [], w => ⟨[], false, w⟩
  | sc :: rest, w =>
    match processReceivedMessage k sc w with
    | (Outcome.returned (some err), w1, calls) =>
      let r := startSignedChan k close rest (close sc.conn w1)
      ⟨⟨sc, some err, calls, [sc.conn]⟩ :: r.passes, r.crashed, r.state⟩
    | (Outcome.returned none, w1, calls) =>
      let r := startSignedChan k close rest w1
      ⟨⟨sc, none, calls, []⟩ :: r.passes, r.crashed, r.state⟩
    | (Outcome.nilDereference, w1, calls) =>
      ⟨[⟨sc, none, calls, []⟩], true, w1⟩

/-- The Go function `writeMessage` of `proto.go`. `marshal` is `proto.Marshal` on
the envelope of `msgs`, `write` is `conn.Write`, which returns the number of bytes
written and an error. Returns the error, the state after, and the arguments of the
`Write` calls made, in order. The byte count of `Write` is dropped, as in the
source. -/
def writeMessage {σ κ ε ω : Type} (marshal : List σ → Except ε (List Byte))
    (write : κ → List Byte → ω → (Nat × Option ε) × ω) (conn : κ) (msgs : List σ) (w : ω) :
    Option ε × ω × List (List Byte) :=
  match marshal msgs with
  | Except.error err => (some err, w, [])
  | Except.ok reply =>
    match write conn (reply ++ breakBytes) w with
    | ((_, some err), w1) => (some err, w1, [reply ++ breakBytes])
    | ((_, none), w1) => (none, w1, [reply ++ breakBytes])

/-! ## Vocabulary of the statements -/

/-- A frame body the reader completes: it is not empty, the length guard lets its
closing delimiter through, and no delimiter match happens before that delimiter is
complete. -/
structure Framed (F : List Byte) : Prop where
  nonempty : F ≠ []
  fits : F.length + 2 ≤ maxMessageLength
  noEarly : ∀ k, k < F.length + 3 → breakScan ((F ++ breakBytes).take k) = false

/-- No prefix of `s` is a delimiter match. -/
def NoMatch (s : List Byte) : Prop :=
  ∀ k, k ≤ s.length → breakScan (s.take k) = false

/-- The items one decoded envelope puts on the channel. -/
def itemsOf {σ κ τ : Type} (conn : κ) (t : τ) (us : List σ) : List (signedConn σ κ τ) :=
  us.map fun u => ⟨u, conn, t⟩

/-- The stream made of the given frame bodies, each followed by the delimiter. -/
def frames : List (List Byte) → List Byte
  | [] => []
  | F :: fs => F ++ breakBytes ++ frames fs

/-- The items of a sequence of frames, frame after frame; a frame that does not
decode has none. -/
def unitsOf {σ κ τ ε : Type} (unmarshal : List Byte → Except ε (List σ)) (conn : κ) (t : τ) :
    List (List Byte) → List (signedConn σ κ τ)
  | [] => []
  | F :: fs =>
    (match unmarshal F with
      | Except.ok us => itemsOf conn t us
      | Except.error _ => []) ++ unitsOf unmarshal conn t fs

/-- Every frame of the list is completed by the reader and decodes. -/
def Delivered {σ ε : Type} (unmarshal : List Byte → Except ε (List σ))
    (fs : List (List Byte)) : Prop :=
  ∀ F ∈ fs, Framed F ∧ ∃ us, unmarshal F = Except.ok us

/-- The call is a call of `announceStart`. -/
def Call.isAnnounceStart {σ κ τ : Type} : Call σ κ τ → Bool
  | Call.announceStart _ => true
  | _ => false

/-- The pass is a registration that succeeded: `registerClient` was the first call
and the method returned nil. -/
def Pass.registered {σ κ τ ε : Type} (p : Pass σ κ τ ε) : Bool :=
  match p.calls, p.err with
  | Call.registerClient _ :: _, none => true
  | _, _ => false

/-- The number of calls of `announceStart` made in the pass. -/
def Pass.announcements {σ κ τ ε : Type} (p : Pass σ κ τ ε) : Nat :=
  p.calls.countP Call.isAnnounceStart

/-- The number of calls of `announceStart` made in all the passes. -/
def announcements {σ κ τ ε : Type} : List (Pass σ κ τ ε) → Nat
  | [] => 0
  | p :: ps => p.announcements + announcements ps

/-- The tracker of the pool-ready statement: the target size is `N`, the pool of
every session has `size w` members, a registration that succeeds adds one member
and leaves a session for the connection, and nothing else changes the number of
members. -/
structure CountingTracker {σ κ τ ε ω : Type} (k : Collab σ κ τ ε ω) (close : κ → ω → ω)
    (N : Nat) (size : ω → Nat) : Prop where
  target : ∀ t w, k.poolSize t w = (N : Int)
  measured : ∀ t conn w pd, k.getTrackerData t conn w = some pd →
    k.getPoolSize t pd.pool w = (size w : Int)
  admitted : ∀ sc w w1, k.registerClient sc w = (none, w1) →
    size w1 = size w + 1 ∧ k.getTrackerData sc.tracker sc.conn w1 ≠ none
  refused : ∀ sc w e w1, k.registerClient sc w = (some e, w1) → size w1 = size w
  announce : ∀ sc w, size (k.announceStart sc w) = size w
  verify : ∀ sc w, size (k.verifyMessage sc w).2 = size w
  broadcast : ∀ sc w, size (k.broadcastMessage sc w).2 = size w
  closing : ∀ conn w, size (close conn w) = size w

/-! ## Concrete instances used to exhibit the statements -/

/-- A decoder for examples: a body that starts with byte 0 is rejected with error
9, any other body decodes to its bytes, one unit per byte. -/
def sampleUnmarshal (b : List Byte) : Except Nat (List Byte) :=
  if b.head? = some 0 then Except.error 9 else Except.ok b

/-- Collaborators for examples over a state that lists the registered
connections: every registered connection is in pool 0, the target pool size is 2,
registration fails for message 0, verification fails for message 1. -/
def sampleCollab : Collab Nat Nat Unit Nat (List Nat) where
  getTrackerData := fun _ conn w => if conn ∈ w then some ⟨0⟩ else none
  getPoolSize := fun _ _ w => (w.length : Int)
  poolSize := fun _ _ => 2
  registerClient := fun sc w => if sc.message = 0 then (some 1, w) else (none, w ++ [sc.conn])
  announceStart := fun _ w => w
  verifyMessage := fun sc w => if sc.message = 1 then (some 2, w) else (none, w)
  broadcastMessage := fun _ w => (none, w)

/-- An encoder for examples, inverted by `sampleUnmarshal`: units that start with 0
are rejected with error 9, any other sequence is serialized to itself. -/
def sampleMarshal (us : List Byte) : Except Nat (List Byte) :=
  if us.head? = some 0 then Except.error 9 else Except.ok us

/-- A `Write` for examples over a state that keeps what each connection was sent:
connection 0 is broken and fails with error 3 after 0 bytes, any other connection
takes all the bytes. -/
def sampleWrite (conn : Nat) (p : List Byte) (w : List (Nat × List Byte)) :
    (Nat × Option Nat) × List (Nat × List Byte) :=
  if conn = 0 then ((0, some 3), w) else ((p.length, none), w ++ [(conn, p)])

/-- The `Close` of the examples: it leaves the list of registered connections as
it is. -/
def sampleClose (_conn : Nat) (w : List Nat) : List Nat := w

/-- Collaborators for examples over a state that holds the registered connections
and the number of start announcements made: every registered connection is in pool
0, the target pool size is 2, registration fails for message 0, verification fails
for message 1, and `announceStart` adds one to the number of announcements. -/
def sampleRounds : Collab Nat Nat Unit Nat (List Nat × Nat) where
  getTrackerData := fun _ conn w => if conn ∈ w.1 then some ⟨0⟩ else none
  getPoolSize := fun _ _ w => (w.1.length : Int)
  poolSize := fun _ _ => 2
  registerClient := fun sc w =>
    if sc.message = 0 then (some 1, w) else (none, (w.1 ++ [sc.conn], w.2))
  announceStart := fun _ w => (w.1, w.2 + 1)
  verifyMessage := fun sc w => if sc.message = 1 then (some 2, w) else (none, w)
  broadcastMessage := fun _ w => (none, w)

/-- The `Close` of the examples over `sampleRounds`: it leaves the state as it
is. -/
def roundsClose (_conn : Nat) (w : List Nat × Nat) : List Nat × Nat := w

/-! # Lemmas -/

/-! ## The delimiter test -/

theorem getD_append_at (f g : List Byte) (k n : Nat) (h : n = f.length + k) :
    (f ++ g).getD n 0 = g.getD k 0 := by
  subst h
  rw [List.getD_append_right _ _ _ _ (by omega)]
  simp

theorem breakScan_append_three (f : List Byte) (x y z : Byte) :
    breakScan (f ++ [x, y, z]) = (decide (f ≠ []) && (x == 226 && (y == 143 && z == 142))) := by
  have h1 : (f ++ [x, y, z]).getD (f.length + 3 - 3) 0 = x := by
    rw [getD_append_at f _ 0 _ (by omega)]; rfl
  have h2 : (f ++ [x, y, z]).getD (f.length + 3 - 2) 0 = y := by
    rw [getD_append_at f _ 1 _ (by omega)]; rfl
  have h3 : (f ++ [x, y, z]).getD (f.length + 3 - 1) 0 = z := by
    rw [getD_append_at f _ 2 _ (by omega)]; rfl
  unfold breakScan
  simp only [List.length_append, List.length_cons, List.length_nil, h1, h2, h3]
  cases f with
  | nil => simp
  | cons a f => simp [List.range_succ, breakBytes]

theorem breakScan_short (buf : List Byte) (h : buf.length ≤ 3) : breakScan buf = false := by
  unfold breakScan
  simp only
  rw [if_neg (by omega)]

theorem breakScan_append_breakBytes (f : List Byte) (h : f ≠ []) :
    breakScan (f ++ breakBytes) = true := by
  unfold breakBytes
  rw [breakScan_append_three]
  simp [h]

/-- A buffer of at least three bytes splits into what precedes its last three
bytes and those three. -/
theorem exists_last_three (buf : List Byte) (h : 3 ≤ buf.length) :
    ∃ f x y z, buf = f ++ [x, y, z] := by
  have hsplit : buf = buf.take (buf.length - 3) ++ buf.drop (buf.length - 3) :=
    (List.take_append_drop _ _).symm
  have hlen : (buf.drop (buf.length - 3)).length = 3 := by
    rw [List.length_drop]; omega
  match hd : buf.drop (buf.length - 3), hlen with
  | [x, y, z], _ => exact ⟨_, x, y, z, by rw [← hd]; exact hsplit⟩

theorem breakScan_eq_true_iff (buf : List Byte) :
    breakScan buf = true ↔ ∃ f, f ≠ [] ∧ buf = f ++ breakBytes := by
  constructor
  · intro h
    by_cases hl : buf.length ≤ 3
    · rw [breakScan_short buf hl] at h; exact absurd h (by decide)
    · obtain ⟨f, x, y, z, rfl⟩ := exists_last_three buf (by omega)
      rw [breakScan_append_three] at h
      simp only [Bool.and_eq_true, decide_eq_true_eq, beq_iff_eq] at h
      obtain ⟨hf, rfl, rfl, rfl⟩ := h
      exact ⟨f, hf, rfl⟩
  · rintro ⟨f, hf, rfl⟩
    exact breakScan_append_breakBytes f hf

theorem breakScan_eq_true_iff_length (buf : List Byte) :
    breakScan buf = true ↔ 3 < buf.length ∧ buf.drop (buf.length - 3) = breakBytes := by
  rw [breakScan_eq_true_iff]
  constructor
  · rintro ⟨f, hf, rfl⟩
    have : 0 < f.length := List.length_pos.mpr hf
    refine ⟨by simp [breakBytes]; omega, ?_⟩
    have h3 : (f ++ breakBytes).length - 3 = f.length := by simp [breakBytes]
    rw [h3, List.drop_left]
  · rintro ⟨hl, hd⟩
    refine ⟨buf.take (buf.length - 3), ?_, ?_⟩
    · intro h
      have := congrArg List.length h
      rw [List.length_take] at this
      simp at this
      omega
    · rw [← hd, List.take_append_drop]

/-! ## The inner loop -/

theorem scanLoop_cons_step (b : List Byte) (x : Byte) (rest : List Byte)
    (hlen : b.length ≤ maxMessageLength) (hno : breakScan (b ++ [x]) = false) :
    scanLoop b (x :: rest) = scanLoop (b ++ [x]) rest := by
  rw [scanLoop, if_neg (by omega)]
  simp only [hno]
  rfl

theorem scanLoop_cons_break (b : List Byte) (x : Byte) (rest : List Byte)
    (hlen : b.length ≤ maxMessageLength) (hyes : breakScan (b ++ [x]) = true) :
    scanLoop b (x :: rest) =
      ⟨ScanExit.delimiter, (b ++ [x]).take ((b ++ [x]).length - 3), rest⟩ := by
  rw [scanLoop, if_neg (by omega)]
  simp only [hyes]
  rfl

theorem scanLoop_cons_tooLong (b : List Byte) (x : Byte) (rest : List Byte)
    (hlen : maxMessageLength < b.length) :
    scanLoop b (x :: rest) = ⟨ScanExit.tooLong, b, rest⟩ := by
  rw [scanLoop, if_pos hlen]

/-- Bytes that bring no delimiter match and stay under the guard are all written. -/
theorem scanLoop_append (s : List Byte) :
    ∀ (b rest : List Byte), b.length + s.length ≤ maxMessageLength + 1 →
      (∀ k, 0 < k → k ≤ s.length → breakScan (b ++ s.take k) = false) →
      scanLoop b (s ++ rest) = scanLoop (b ++ s) rest := by
  induction s with
  | nil => intro b rest _ _; simp
  | cons x s ih =>
    intro b rest hlen hno
    simp only [List.length_cons] at hlen
    have h1 : breakScan (b ++ [x]) = false := by
      have := hno 1 (by omega) (by simp)
      simpa using this
    rw [List.cons_append, scanLoop_cons_step b x _ (by omega) h1]
    rw [ih (b ++ [x]) rest (by simp; omega)]
    · simp
    · intro k hk hk2
      have := hno (k + 1) (by omega) (by simp; omega)
      simpa using this

theorem scanLoop_frame (F rest : List Byte) (hF : Framed F) :
    scanLoop [] (F ++ breakBytes ++ rest) = ⟨ScanExit.delimiter, F, rest⟩ := by
  have hsplit : F ++ breakBytes ++ rest = (F ++ [226, 143]) ++ (142 :: rest) := by
    simp [breakBytes]
  rw [hsplit, scanLoop_append (F ++ [226, 143]) [] (142 :: rest)]
  · have hb : [] ++ (F ++ [226, 143]) ++ [142] = F ++ breakBytes := by simp [breakBytes]
    rw [scanLoop_cons_break _ _ _ (by have := hF.fits; simp; omega)
      (by rw [hb]; exact breakScan_append_breakBytes F hF.nonempty)]
    rw [hb]
    have : (F ++ breakBytes).length - 3 = F.length := by simp [breakBytes]
    rw [this, List.take_left]
  · have := hF.fits
    simp
    omega
  · intro k _ hk
    simp only [List.length_append, List.length_cons, List.length_nil] at hk
    have h := hF.noEarly k (by omega)
    have htake : (F ++ breakBytes).take k = (F ++ [226, 143]).take k := by
      have e : F ++ breakBytes = (F ++ [226, 143]) ++ [142] := by simp [breakBytes]
      rw [e, List.take_append_of_le_length (by simp; omega)]
    rw [htake] at h
    simpa using h

theorem scanLoop_unterminated (P : List Byte) (hno : NoMatch P)
    (hlen : P.length ≤ maxMessageLength + 1) :
    scanLoop [] P = ⟨ScanExit.exhausted, P, []⟩ := by
  have h := scanLoop_append P [] [] (by simpa using hlen)
    (fun k _ hk => by simpa using hno k hk)
  simp only [List.append_nil, List.nil_append] at h
  rw [h, scanLoop]

theorem scanLoop_oversized (big : List Byte) (x : Byte) (rest : List Byte) (hno : NoMatch big)
    (hlen : big.length = maxMessageLength + 1) :
    scanLoop [] (big ++ x :: rest) = ⟨ScanExit.tooLong, big, rest⟩ := by
  rw [scanLoop_append big [] (x :: rest) (by simp; omega)
    (fun k _ hk => by simpa using hno k hk)]
  simp only [List.nil_append]
  exact scanLoop_cons_tooLong big x rest (by omega)

/-- When the inner loop is left at a delimiter, the frame is not empty and the
scanner has fewer bytes left than before. -/
theorem scanLoop_delimiter (s : List Byte) :
    ∀ b, (scanLoop b s).exit = ScanExit.delimiter →
      (scanLoop b s).b ≠ [] ∧ (scanLoop b s).rest.length < s.length := by
  induction s with
  | nil => intro b h; simp [scanLoop] at h
  | cons x s ih =>
    intro b h
    by_cases hlen : maxMessageLength < b.length
    · rw [scanLoop_cons_tooLong b x s hlen] at h; simp at h
    · by_cases hb : breakScan (b ++ [x]) = true
      · rw [scanLoop_cons_break b x s (by omega) hb]
        obtain ⟨f, hf, he⟩ := (breakScan_eq_true_iff _).mp hb
        refine ⟨?_, by simp⟩
        simp only
        rw [he]
        have : (f ++ breakBytes).length - 3 = f.length := by simp [breakBytes]
        rw [this, List.take_left]
        exact hf
      · have hb2 : breakScan (b ++ [x]) = false := by simpa using hb
        rw [scanLoop_cons_step b x s (by omega) hb2] at h ⊢
        obtain ⟨h1, h2⟩ := ih _ h
        exact ⟨h1, by simp; omega⟩

theorem scanLoop_exhausted (s : List Byte) :
    ∀ b, (scanLoop b s).exit = ScanExit.exhausted → (scanLoop b s).rest = [] := by
  induction s with
  | nil => intro b _; simp [scanLoop]
  | cons x s ih =>
    intro b h
    by_cases hlen : maxMessageLength < b.length
    · rw [scanLoop_cons_tooLong b x s hlen] at h; simp at h
    · by_cases hb : breakScan (b ++ [x]) = true
      · rw [scanLoop_cons_break b x s (by omega) hb] at h; simp at h
      · have hb2 : breakScan (b ++ [x]) = false := by simpa using hb
        rw [scanLoop_cons_step b x s (by omega) hb2] at h ⊢
        exact ih _ h

/-! ## The decoder call -/

section
variable {σ κ τ ε : Type} (unmarshal : List Byte → Except ε (List σ)) (conn : κ) (t : τ)
  (final : Option ε) (pending : Nat)

theorem foldl_send (us : List σ) :
    ∀ c : List (signedConn σ κ τ),
      us.foldl (fun ch signed => ch ++ [⟨signed, conn, t⟩]) c = c ++ itemsOf conn t us := by
  induction us with
  | nil => intro c; simp [itemsOf]
  | cons u us ih => intro c; simp [List.foldl_cons, ih, itemsOf]

theorem sendToSignedChan_ok (b : List Byte) (c : List (signedConn σ κ τ)) (us : List σ)
    (h : unmarshal b = Except.ok us) :
    sendToSignedChan unmarshal b conn c t = (none, [], c ++ itemsOf conn t us) := by
  unfold sendToSignedChan
  rw [h]
  simp only [foldl_send]

theorem sendToSignedChan_error (b : List Byte) (c : List (signedConn σ κ τ)) (e : ε)
    (h : unmarshal b = Except.error e) :
    sendToSignedChan unmarshal b conn c t = (some e, [], c) := by
  unfold sendToSignedChan
  rw [h]

/-! ## The outer loop -/

theorem scannerErr_none (r : ScanResult) : scannerErr (none : Option ε) pending r = none := by
  unfold scannerErr
  split <;> rfl

theorem scannerErr_exhausted (r : ScanResult) (h : r.exit = ScanExit.exhausted) :
    scannerErr final pending r = final := by
  unfold scannerErr
  rw [if_pos (Or.inl h)]

/-- After a delimiter break `scanner.Err()` is nil when the stream ends cleanly, or
when at least as many bytes are left as the failing `Read` brought. -/
theorem scannerErr_quiet (r : ScanResult)
    (hq : final = none ∨ min pending scannerBufferSize ≤ r.rest.length)
    (h : r.exit ≠ ScanExit.exhausted) : scannerErr final pending r = none := by
  rcases hq with rfl | hq
  · exact scannerErr_none pending r
  · unfold scannerErr
    rw [if_neg (by
      intro h2
      rcases h2 with h2 | h2
      · exact h h2
      · omega)]

theorem scannerErr_some (r : ScanResult) (e : ε) (h : scannerErr final pending r = some e) :
    final = some e := by
  unfold scannerErr at h
  split at h
  · exact h
  · cases h

theorem processLoop_tooLong (n : Nat) (s : List Byte) (hd : List (List Byte))
    (c : List (signedConn σ κ τ)) (h : (scanLoop [] s).exit = ScanExit.tooLong) :
    processLoop unmarshal conn t final pending (n + 1) s hd c =
      some ⟨hd, c, Exit.messageTooLong, (scanLoop [] s).rest⟩ := by
  rw [processLoop]
  simp only [h, if_true]

theorem processLoop_scanError (n : Nat) (s : List Byte) (hd : List (List Byte))
    (c : List (signedConn σ κ τ)) (e : ε) (h : (scanLoop [] s).exit ≠ ScanExit.tooLong)
    (he : scannerErr final pending (scanLoop [] s) = some e) :
    processLoop unmarshal conn t final pending (n + 1) s hd c =
      some ⟨hd, c, Exit.scanError e, (scanLoop [] s).rest⟩ := by
  rw [processLoop]
  simp only [h, if_false]
  rw [he]

theorem processLoop_empty (n : Nat) (s : List Byte) (hd : List (List Byte))
    (c : List (signedConn σ κ τ)) (h : (scanLoop [] s).exit ≠ ScanExit.tooLong)
    (he : scannerErr final pending (scanLoop [] s) = none)
    (hb : (scanLoop [] s).b = []) :
    processLoop unmarshal conn t final pending (n + 1) s hd c =
      some ⟨hd, c, Exit.emptyMessage, (scanLoop [] s).rest⟩ := by
  rw [processLoop]
  simp only [h, if_false, hb, if_true]
  rw [he]

theorem processLoop_send_ok (n : Nat) (s : List Byte) (hd : List (List Byte))
    (c : List (signedConn σ κ τ)) (us : List σ)
    (h : (scanLoop [] s).exit ≠ ScanExit.tooLong)
    (he : scannerErr final pending (scanLoop [] s) = none)
    (hb : (scanLoop [] s).b ≠ []) (hu : unmarshal (scanLoop [] s).b = Except.ok us) :
    processLoop unmarshal conn t final pending (n + 1) s hd c =
      processLoop unmarshal conn t final pending n (scanLoop [] s).rest (hd ++ [(scanLoop [] s).b])
        (c ++ itemsOf conn t us) := by
  rw [processLoop]
  simp only [h, if_false, hb]
  rw [he]
  simp only [sendToSignedChan_ok unmarshal conn t _ c us hu]

theorem processLoop_send_error (n : Nat) (s : List Byte) (hd : List (List Byte))
    (c : List (signedConn σ κ τ)) (e : ε)
    (h : (scanLoop [] s).exit ≠ ScanExit.tooLong)
    (he : scannerErr final pending (scanLoop [] s) = none)
    (hb : (scanLoop [] s).b ≠ []) (hu : unmarshal (scanLoop [] s).b = Except.error e) :
    processLoop unmarshal conn t final pending (n + 1) s hd c =
      some ⟨hd ++ [(scanLoop [] s).b], c, Exit.sendError e, (scanLoop [] s).rest⟩ := by
  rw [processLoop]
  simp only [h, if_false, hb]
  rw [he]
  simp only [sendToSignedChan_error unmarshal conn t _ c e hu]

end

section
variable {σ κ τ ε : Type} (unmarshal : List Byte → Except ε (List σ)) (conn : κ) (t : τ)
  (final : Option ε) (pending : Nat)

/-- A pass that goes on leaves fewer bytes than it found, or none after at least one. -/
theorem scanLoop_progress (s : List Byte) (h : (scanLoop [] s).exit ≠ ScanExit.tooLong)
    (hb : (scanLoop [] s).b ≠ []) : (scanLoop [] s).rest.length < s.length := by
  cases hx : (scanLoop [] s).exit with
  | tooLong => exact absurd hx h
  | delimiter => exact (scanLoop_delimiter s [] hx).2
  | exhausted =>
    rw [scanLoop_exhausted s [] hx]
    cases s with
    | nil => simp [scanLoop] at hb
    | cons x s => simp

/-- Past `input.length + 1` passes the bound on the outer loop plays no part. -/
theorem processLoop_fuel (n : Nat) :
    ∀ (m : Nat) (s : List Byte) (hd : List (List Byte)) (c : List (signedConn σ κ τ)),
      s.length + 1 ≤ n → s.length + 1 ≤ m →
      processLoop unmarshal conn t final pending n s hd c =
        processLoop unmarshal conn t final pending m s hd c := by
  induction n with
  | zero => intro m s hd c h; omega
  | succ n ih =>
    intro m s hd c hn hm
    obtain ⟨m, rfl⟩ : ∃ k, m = k + 1 := ⟨m - 1, by omega⟩
    by_cases h : (scanLoop [] s).exit = ScanExit.tooLong
    · rw [processLoop_tooLong _ _ _ _ _ n s hd c h, processLoop_tooLong _ _ _ _ _ m s hd c h]
    · cases he : scannerErr final pending (scanLoop [] s) with
      | some e =>
        rw [processLoop_scanError _ _ _ _ _ n s hd c e h he,
          processLoop_scanError _ _ _ _ _ m s hd c e h he]
      | none =>
        by_cases hb : (scanLoop [] s).b = []
        · rw [processLoop_empty _ _ _ _ _ n s hd c h he hb,
            processLoop_empty _ _ _ _ _ m s hd c h he hb]
        · cases hu : unmarshal (scanLoop [] s).b with
          | error e =>
            rw [processLoop_send_error _ _ _ _ _ n s hd c e h he hb hu,
              processLoop_send_error _ _ _ _ _ m s hd c e h he hb hu]
          | ok us =>
            rw [processLoop_send_ok _ _ _ _ _ n s hd c us h he hb hu,
              processLoop_send_ok _ _ _ _ _ m s hd c us h he hb hu]
            have := scanLoop_progress s h hb
            exact ih m _ _ _ (by omega) (by omega)

/-- With `input.length + 1` passes or more the outer loop reaches one of its exits. -/
theorem processLoop_isSome (n : Nat) :
    ∀ (s : List Byte) (hd : List (List Byte)) (c : List (signedConn σ κ τ)),
      s.length + 1 ≤ n → (processLoop unmarshal conn t final pending n s hd c).isSome = true := by
  induction n with
  | zero => intro s hd c h; omega
  | succ n ih =>
    intro s hd c hn
    by_cases h : (scanLoop [] s).exit = ScanExit.tooLong
    · rw [processLoop_tooLong _ _ _ _ _ n s hd c h]; rfl
    · cases he : scannerErr final pending (scanLoop [] s) with
      | some e =>
        rw [processLoop_scanError _ _ _ _ _ n s hd c e h he]; rfl
      | none =>
        by_cases hb : (scanLoop [] s).b = []
        · rw [processLoop_empty _ _ _ _ _ n s hd c h he hb]; rfl
        · cases hu : unmarshal (scanLoop [] s).b with
          | error e => rw [processLoop_send_error _ _ _ _ _ n s hd c e h he hb hu]; rfl
          | ok us =>
            rw [processLoop_send_ok _ _ _ _ _ n s hd c us h he hb hu]
            have := scanLoop_progress s h hb
            exact ih _ _ _ (by omega)

/-- One delivered frame at the head of the stream: its items are enqueued and the
loop goes on with what follows the delimiter. -/
theorem processLoop_frame (n : Nat) (F rest : List Byte) (hd : List (List Byte))
    (c : List (signedConn σ κ τ)) (us : List σ) (hF : Framed F)
    (hu : unmarshal F = Except.ok us)
    (hq : final = none ∨ min pending scannerBufferSize ≤ rest.length) :
    processLoop unmarshal conn t final pending (n + 1) (F ++ breakBytes ++ rest) hd c =
      processLoop unmarshal conn t final pending n rest (hd ++ [F])
        (c ++ itemsOf conn t us) := by
  have hs := scanLoop_frame F rest hF
  have h := processLoop_send_ok unmarshal conn t final pending n (F ++ breakBytes ++ rest)
    hd c us (by rw [hs]; simp)
    (by rw [hs]; exact scannerErr_quiet final pending _ hq (by simp))
    (by rw [hs]; exact hF.nonempty) (by rw [hs]; exact hu)
  rw [h, hs]

theorem frames_length_le (fs : List (List Byte)) (tail : List Byte) :
    tail.length ≤ (frames fs ++ tail).length := by
  simp

/-- A prefix of delivered frames, with no read error pending before the tail: all
are handed to the decoder in order, their items enqueued in order, and the loop
goes on with the tail. -/
theorem processLoop_frames (fs : List (List Byte)) :
    ∀ (n : Nat) (tail : List Byte) (hd : List (List Byte)) (c : List (signedConn σ κ τ)),
      Delivered unmarshal fs → (final = none ∨ min pending scannerBufferSize ≤ tail.length) →
      (frames fs ++ tail).length + 1 ≤ n →
      processLoop unmarshal conn t final pending n (frames fs ++ tail) hd c =
        processLoop unmarshal conn t final pending (tail.length + 2) tail (hd ++ fs)
          (c ++ unitsOf unmarshal conn t fs) := by
  induction fs with
  | nil =>
    intro n tail hd c _ _ hn
    simp only [frames, List.nil_append, unitsOf, List.append_nil] at hn ⊢
    exact processLoop_fuel unmarshal conn t final pending n _ tail hd c hn (by omega)
  | cons F fs ih =>
    intro n tail hd c hdel hq hn
    obtain ⟨hF, us, hu⟩ := hdel F (List.mem_cons_self _ _)
    have hdel2 : Delivered unmarshal fs := fun G hG => hdel G (List.mem_cons_of_mem _ hG)
    obtain ⟨n, rfl⟩ : ∃ k, n = k + 1 := ⟨n - 1, by omega⟩
    have e : frames (F :: fs) ++ tail = F ++ breakBytes ++ (frames fs ++ tail) := by
      simp [frames]
    rw [e] at hn ⊢
    rw [processLoop_frame unmarshal conn t final pending n F _ hd c us hF hu
      (hq.imp id (fun h => Nat.le_trans h (frames_length_le fs tail)))]
    rw [ih n tail _ _ hdel2 hq (by simp [breakBytes] at hn ⊢; omega)]
    simp [unitsOf, hu]

end

/-! ## Streams without the last delimiter byte -/

theorem breakScan_false_of_getLast (s : List Byte) (h : ∀ x ∈ s.getLast?, x ≠ 142) :
    breakScan s = false := by
  cases hb : breakScan s with
  | false => rfl
  | true =>
    obtain ⟨f, _, rfl⟩ := (breakScan_eq_true_iff s).mp hb
    have : (f ++ breakBytes).getLast? = some 142 := by simp [breakBytes]
    exact absurd rfl (h 142 (by rw [this]; rfl))

theorem noMatch_of_forall_ne (s : List Byte) (h : ∀ x ∈ s, x ≠ 142) : NoMatch s := by
  intro k _
  apply breakScan_false_of_getLast
  intro x hx
  have hmem : x ∈ s.take k := List.mem_of_getLast?_eq_some hx
  exact h x (List.mem_of_mem_take hmem)

theorem noMatch_replicate_one (n : Nat) : NoMatch (List.replicate n 1) :=
  noMatch_of_forall_ne _ (fun x hx => by
    rw [List.eq_of_mem_replicate hx]; decide)

theorem noMatch_replicate_one_append (n : Nat) : NoMatch (List.replicate n 1 ++ [226, 143]) :=
  noMatch_of_forall_ne _ (fun x hx => by
    rcases List.mem_append.mp hx with h | h
    · rw [List.eq_of_mem_replicate h]; decide
    · simp at h; rcases h with rfl | rfl <;> decide)

section
variable {σ κ τ ε : Type} (unmarshal : List Byte → Except ε (List σ)) (conn : κ) (t : τ)
  (final : Option ε) (pending : Nat)

/-- On an exhausted stream the outer loop stops at once: on the read error if
there is one, on the empty buffer otherwise. -/
theorem processLoop_nil (n : Nat) (hd : List (List Byte)) (c : List (signedConn σ κ τ)) :
    processLoop unmarshal conn t final pending (n + 1) [] hd c =
      some ⟨hd, c, (match final with
        | some e => Exit.scanError e
        | none => Exit.emptyMessage), []⟩ := by
  cases final with
  | some e =>
    exact processLoop_scanError unmarshal conn t (some e) pending n [] hd c e
      (by simp [scanLoop]) (scannerErr_exhausted (some e) pending _ (by simp [scanLoop]))
  | none =>
    exact processLoop_empty unmarshal conn t none pending n [] hd c (by simp [scanLoop])
      (scannerErr_none pending _) (by simp [scanLoop])

/-- What the outer loop hands over and enqueues only grows. -/
theorem processLoop_extends (n : Nat) :
    ∀ (s : List Byte) (hd : List (List Byte)) (c : List (signedConn σ κ τ)) (r : Run σ κ τ ε),
      processLoop unmarshal conn t final pending n s hd c = some r →
      (∃ more, r.handed = hd ++ more) ∧ (∃ more, r.chan = c ++ more) := by
  induction n with
  | zero => intro s hd c r h; simp [processLoop] at h
  | succ n ih =>
    intro s hd c r hr
    by_cases h : (scanLoop [] s).exit = ScanExit.tooLong
    · rw [processLoop_tooLong _ _ _ _ _ n s hd c h] at hr
      cases hr; exact ⟨⟨[], by simp⟩, ⟨[], by simp⟩⟩
    · cases he : scannerErr final pending (scanLoop [] s) with
      | some e =>
        rw [processLoop_scanError _ _ _ _ _ n s hd c e h he] at hr
        cases hr; exact ⟨⟨[], by simp⟩, ⟨[], by simp⟩⟩
      | none =>
        by_cases hb : (scanLoop [] s).b = []
        · rw [processLoop_empty _ _ _ _ _ n s hd c h he hb] at hr
          cases hr; exact ⟨⟨[], by simp⟩, ⟨[], by simp⟩⟩
        · cases hu : unmarshal (scanLoop [] s).b with
          | error e =>
            rw [processLoop_send_error _ _ _ _ _ n s hd c e h he hb hu] at hr
            cases hr; exact ⟨⟨_, rfl⟩, ⟨[], by simp⟩⟩
          | ok us =>
            rw [processLoop_send_ok _ _ _ _ _ n s hd c us h he hb hu] at hr
            obtain ⟨⟨m1, h1⟩, ⟨m2, h2⟩⟩ := ih _ _ _ r hr
            exact ⟨⟨(scanLoop [] s).b :: m1, by rw [h1]; simp⟩,
              ⟨itemsOf conn t us ++ m2, by rw [h2]; simp⟩⟩

theorem processMessages_frames (fs : List (List Byte)) (tail : List Byte)
    (c : List (signedConn σ κ τ)) (hdel : Delivered unmarshal fs)
    (hq : final = none ∨ min pending scannerBufferSize ≤ tail.length) :
    processMessages unmarshal conn c t (frames fs ++ tail) final pending =
      processLoop unmarshal conn t final pending (tail.length + 2) tail fs
        (c ++ unitsOf unmarshal conn t fs) := by
  unfold processMessages
  rw [processLoop_frames unmarshal conn t final pending fs _ tail [] c hdel hq (by omega)]
  simp

end

/-! ## Length of what the inner loop leaves in the buffer -/

theorem scanLoop_length (s : List Byte) :
    ∀ b, b.length ≤ maxMessageLength + 1 → (scanLoop b s).b.length ≤ maxMessageLength + 1 := by
  induction s with
  | nil => intro b h; simpa [scanLoop] using h
  | cons x s ih =>
    intro b h
    by_cases hlen : maxMessageLength < b.length
    · rw [scanLoop_cons_tooLong b x s hlen]; exact h
    · by_cases hb : breakScan (b ++ [x]) = true
      · rw [scanLoop_cons_break b x s (by omega) hb]
        simp only [List.length_take, List.length_append, List.length_cons, List.length_nil]
        omega
      · have hb2 : breakScan (b ++ [x]) = false := by simpa using hb
        rw [scanLoop_cons_step b x s (by omega) hb2]
        exact ih _ (by simp; omega)

theorem scanLoop_delimiter_length (s : List Byte) :
    ∀ b, (scanLoop b s).exit = ScanExit.delimiter →
      (scanLoop b s).b.length + 2 ≤ maxMessageLength := by
  induction s with
  | nil => intro b h; simp [scanLoop] at h
  | cons x s ih =>
    intro b h
    by_cases hlen : maxMessageLength < b.length
    · rw [scanLoop_cons_tooLong b x s hlen] at h; simp at h
    · by_cases hb : breakScan (b ++ [x]) = true
      · rw [scanLoop_cons_break b x s (by omega) hb]
        have h4 := ((breakScan_eq_true_iff_length _).mp hb).1
        simp only [List.length_take, List.length_append, List.length_cons, List.length_nil] at h4 ⊢
        omega
      · have hb2 : breakScan (b ++ [x]) = false := by simpa using hb
        rw [scanLoop_cons_step b x s (by omega) hb2] at h ⊢
        exact ih _ h

section
variable {σ κ τ ε : Type} (unmarshal : List Byte → Except ε (List σ)) (conn : κ) (t : τ)
  (final : Option ε) (pending : Nat)

/-- Lengths of the buffers handed to the decoder: every one is at most one byte
over the maximum, and every one but the last is at least two bytes under it. -/
theorem processLoop_handed_length (n : Nat) :
    ∀ (s : List Byte) (hd : List (List Byte)) (c : List (signedConn σ κ τ)) (r : Run σ κ τ ε),
      (∀ b ∈ hd, b.length + 2 ≤ maxMessageLength) →
      processLoop unmarshal conn t final pending n s hd c = some r →
      (∀ b ∈ r.handed, b.length ≤ maxMessageLength + 1) ∧
        (∀ b ∈ r.handed.dropLast, b.length + 2 ≤ maxMessageLength) := by
  induction n with
  | zero => intro s hd c r _ h; simp [processLoop] at h
  | succ n ih =>
    intro s hd c r hhd hr
    have hsame : ∀ r : Run σ κ τ ε, r.handed = hd →
        (∀ b ∈ r.handed, b.length ≤ maxMessageLength + 1) ∧
          (∀ b ∈ r.handed.dropLast, b.length + 2 ≤ maxMessageLength) := by
      intro r hrr
      rw [hrr]
      exact ⟨fun b hb => by have := hhd b hb; omega,
        fun b hb => hhd b (List.mem_of_mem_dropLast hb)⟩
    have hlast : ∀ r : Run σ κ τ ε, r.handed = hd ++ [(scanLoop [] s).b] →
        (∀ b ∈ r.handed, b.length ≤ maxMessageLength + 1) ∧
          (∀ b ∈ r.handed.dropLast, b.length + 2 ≤ maxMessageLength) := by
      intro r hrr
      rw [hrr, List.dropLast_concat]
      refine ⟨fun b hb => ?_, hhd⟩
      rcases List.mem_append.mp hb with h1 | h1
      · have := hhd b h1; omega
      · rw [List.mem_singleton.mp h1]
        exact scanLoop_length s [] (by simp)
    by_cases h : (scanLoop [] s).exit = ScanExit.tooLong
    · rw [processLoop_tooLong _ _ _ _ _ n s hd c h] at hr
      cases hr; exact hsame _ rfl
    · cases he : scannerErr final pending (scanLoop [] s) with
      | some e =>
        rw [processLoop_scanError _ _ _ _ _ n s hd c e h he] at hr
        cases hr; exact hsame _ rfl
      | none =>
        by_cases hb : (scanLoop [] s).b = []
        · rw [processLoop_empty _ _ _ _ _ n s hd c h he hb] at hr
          cases hr; exact hsame _ rfl
        · cases hu : unmarshal (scanLoop [] s).b with
          | error e =>
            rw [processLoop_send_error _ _ _ _ _ n s hd c e h he hb hu] at hr
            cases hr; exact hlast _ rfl
          | ok us =>
            rw [processLoop_send_ok _ _ _ _ _ n s hd c us h he hb hu] at hr
            cases hx : (scanLoop [] s).exit with
            | tooLong => exact absurd hx h
            | delimiter =>
              refine ih _ _ _ r ?_ hr
              intro b hbm
              rcases List.mem_append.mp hbm with h1 | h1
              · exact hhd b h1
              · rw [List.mem_singleton.mp h1]
                exact scanLoop_delimiter_length s [] hx
            | exhausted =>
              rw [scanLoop_exhausted s [] hx] at hr
              cases n with
              | zero => simp [processLoop] at hr
              | succ n =>
                rw [processLoop_nil] at hr
                cases hr; exact hlast _ rfl

/-- A partial frame at the end of the stream, after delivered frames. -/
theorem processLoop_unterminated_error (n : Nat) (P : List Byte) (hd : List (List Byte))
    (c : List (signedConn σ κ τ)) (e : ε) (hno : NoMatch P)
    (hlen : P.length ≤ maxMessageLength + 1) :
    processLoop unmarshal conn t (some e) pending (n + 1) P hd c =
      some ⟨hd, c, Exit.scanError e, []⟩ := by
  have hs := scanLoop_unterminated P hno hlen
  rw [processLoop_scanError unmarshal conn t (some e) pending n P hd c e (by rw [hs]; simp)
    (by rw [hs]; exact scannerErr_exhausted (some e) pending _ rfl), hs]

theorem processLoop_unterminated_ok (n : Nat) (P : List Byte) (hd : List (List Byte))
    (c : List (signedConn σ κ τ)) (us : List σ) (hP : P ≠ []) (hno : NoMatch P)
    (hlen : P.length ≤ maxMessageLength + 1) (hu : unmarshal P = Except.ok us) :
    processLoop unmarshal conn t none pending (n + 2) P hd c =
      some ⟨hd ++ [P], c ++ itemsOf conn t us, Exit.emptyMessage, []⟩ := by
  have hs := scanLoop_unterminated P hno hlen
  rw [processLoop_send_ok unmarshal conn t none pending (n + 1) P hd c us (by rw [hs]; simp)
    (scannerErr_none pending _) (by rw [hs]; exact hP) (by rw [hs]; exact hu), hs]
  exact processLoop_nil unmarshal conn t none pending n _ _

theorem processLoop_unterminated_reject (n : Nat) (P : List Byte) (hd : List (List Byte))
    (c : List (signedConn σ κ τ)) (e : ε) (hP : P ≠ []) (hno : NoMatch P)
    (hlen : P.length ≤ maxMessageLength + 1) (hu : unmarshal P = Except.error e) :
    processLoop unmarshal conn t none pending (n + 1) P hd c =
      some ⟨hd ++ [P], c, Exit.sendError e, []⟩ := by
  have hs := scanLoop_unterminated P hno hlen
  rw [processLoop_send_error unmarshal conn t none pending n P hd c e (by rw [hs]; simp)
    (scannerErr_none pending _) (by rw [hs]; exact hP) (by rw [hs]; exact hu), hs]

/-- More than the maximum accumulated and one more byte: the loop returns. -/
theorem processLoop_oversized (n : Nat) (big : List Byte) (x : Byte) (rest : List Byte)
    (hd : List (List Byte)) (c : List (signedConn σ κ τ)) (hno : NoMatch big)
    (hlen : big.length = maxMessageLength + 1) :
    processLoop unmarshal conn t final pending (n + 1) (big ++ x :: rest) hd c =
      some ⟨hd, c, Exit.messageTooLong, rest⟩ := by
  have hs := scanLoop_oversized big x rest hno hlen
  rw [processLoop_tooLong unmarshal conn t final pending n _ hd c (by rw [hs]), hs]

/-- A completed frame that does not decode ends the loop. -/
theorem processLoop_frame_error (n : Nat) (F rest : List Byte) (hd : List (List Byte))
    (c : List (signedConn σ κ τ)) (e : ε) (hF : Framed F)
    (hu : unmarshal F = Except.error e)
    (hq : final = none ∨ min pending scannerBufferSize ≤ rest.length) :
    processLoop unmarshal conn t final pending (n + 1) (F ++ breakBytes ++ rest) hd c =
      some ⟨hd ++ [F], c, Exit.sendError e, rest⟩ := by
  have hs := scanLoop_frame F rest hF
  rw [processLoop_send_error unmarshal conn t final pending n _ hd c e (by rw [hs]; simp)
    (by rw [hs]; exact scannerErr_quiet final pending _ hq (by simp))
    (by rw [hs]; exact hF.nonempty) (by rw [hs]; exact hu), hs]

/-- A completed frame closed while the read error is pending: the loop ends on the
error and the frame is dropped. -/
theorem processLoop_frame_dropped (n : Nat) (F rest : List Byte) (hd : List (List Byte))
    (c : List (signedConn σ κ τ)) (e : ε) (hF : Framed F) (hf : final = some e)
    (hp : rest.length < min pending scannerBufferSize) :
    processLoop unmarshal conn t final pending (n + 1) (F ++ breakBytes ++ rest) hd c =
      some ⟨hd, c, Exit.scanError e, rest⟩ := by
  have hs := scanLoop_frame F rest hF
  rw [processLoop_scanError unmarshal conn t final pending n _ hd c e (by rw [hs]; simp)
    (by rw [hs]; unfold scannerErr; rw [if_pos (Or.inr hp)]; exact hf), hs]

/-- Delivered frames followed by an unterminated buffer, on a stream that ends with
a read error: the loop ends on that error having handed over the first frames only,
how many depending on what the failing `Read` brought; the unterminated buffer is
not handed over. -/
theorem processLoop_frames_cut (fs : List (List Byte)) :
    ∀ (n : Nat) (P : List Byte) (hd : List (List Byte)) (c : List (signedConn σ κ τ)) (e : ε),
      Delivered unmarshal fs → NoMatch P → P.length ≤ maxMessageLength + 1 →
      (frames fs ++ P).length + 1 ≤ n →
      ∃ j unread, processLoop unmarshal conn t (some e) pending n (frames fs ++ P) hd c =
        some ⟨hd ++ fs.take j, c ++ unitsOf unmarshal conn t (fs.take j),
          Exit.scanError e, unread⟩ := by
  induction fs with
  | nil =>
    intro n P hd c e _ hno hlen hn
    obtain ⟨n, rfl⟩ : ∃ k, n = k + 1 := ⟨n - 1, by omega⟩
    refine ⟨0, [], ?_⟩
    simp only [frames, List.nil_append, List.take_nil, List.append_nil, unitsOf]
    exact processLoop_unterminated_error unmarshal conn t pending n P hd c e hno hlen
  | cons F fs ih =>
    intro n P hd c e hdel hno hlen hn
    obtain ⟨hF, us, hu⟩ := hdel F (List.mem_cons_self _ _)
    have hdel2 : Delivered unmarshal fs := fun G hG => hdel G (List.mem_cons_of_mem _ hG)
    obtain ⟨n, rfl⟩ : ∃ k, n = k + 1 := ⟨n - 1, by omega⟩
    have e1 : frames (F :: fs) ++ P = F ++ breakBytes ++ (frames fs ++ P) := by
      simp [frames]
    rw [e1] at hn ⊢
    by_cases hp : (frames fs ++ P).length < min pending scannerBufferSize
    · refine ⟨0, frames fs ++ P, ?_⟩
      rw [processLoop_frame_dropped unmarshal conn t (some e) pending n F _ hd c e hF rfl hp]
      simp [unitsOf]
    · rw [processLoop_frame unmarshal conn t (some e) pending n F _ hd c us hF hu
        (Or.inr (by omega))]
      obtain ⟨j, unread, hj⟩ := ih n P (hd ++ [F]) (c ++ itemsOf conn t us) e hdel2 hno hlen
        (by simp [breakBytes] at hn ⊢; omega)
      refine ⟨j + 1, unread, ?_⟩
      rw [hj]
      simp [unitsOf, hu]

end

theorem sampleUnmarshal_replicate_one (n : Nat) (h : 0 < n) :
    sampleUnmarshal (List.replicate n 1) = Except.ok (List.replicate n 1) := by
  obtain ⟨m, rfl⟩ : ∃ m, n = m + 1 := ⟨n - 1, by omega⟩
  simp [sampleUnmarshal, List.replicate_succ]

theorem framed_one : Framed [1] := ⟨by decide, by decide, by decide⟩

theorem framed_two : Framed [2, 3] := ⟨by decide, by decide, by decide⟩

theorem delivered_nil {σ ε : Type} (unmarshal : List Byte → Except ε (List σ)) :
    Delivered unmarshal [] := fun _ h => absurd h (List.not_mem_nil _)

theorem delivered_sample : Delivered sampleUnmarshal [[1]] := by
  intro F hF
  rw [List.mem_singleton.mp hF]
  exact ⟨framed_one, [1], rfl⟩

/-- Whatever the inner loop closes at a delimiter: the bytes met are that frame,
the delimiter and the bytes left, and no delimiter match came earlier. -/
theorem scanLoop_delimiter_shape (s : List Byte) :
    ∀ b, (scanLoop b s).exit = ScanExit.delimiter →
      b ++ s = (scanLoop b s).b ++ breakBytes ++ (scanLoop b s).rest ∧
      ∀ k, b.length < k → k < (scanLoop b s).b.length + 3 →
        breakScan (((scanLoop b s).b ++ breakBytes).take k) = false := by
  induction s with
  | nil => intro b h; simp [scanLoop] at h
  | cons x s ih =>
    intro b h
    by_cases hlen : maxMessageLength < b.length
    · rw [scanLoop_cons_tooLong b x s hlen] at h; simp at h
    · by_cases hb : breakScan (b ++ [x]) = true
      · rw [scanLoop_cons_break b x s (by omega) hb]
        obtain ⟨f, _, he⟩ := (breakScan_eq_true_iff _).mp hb
        have h3 : (f ++ breakBytes).length - 3 = f.length := by simp [breakBytes]
        have hl : b.length + 1 = f.length + 3 := by
          have := congrArg List.length he
          simpa [breakBytes] using this
        simp only
        rw [he, h3, List.take_left]
        refine ⟨?_, fun k hk1 hk2 => by omega⟩
        rw [← he]; simp
      · have hb2 : breakScan (b ++ [x]) = false := by simpa using hb
        rw [scanLoop_cons_step b x s (by omega) hb2] at h ⊢
        obtain ⟨h1, h2⟩ := ih _ h
        refine ⟨by rw [← h1]; simp, fun k hk1 hk2 => ?_⟩
        by_cases hk : k = b.length + 1
        · have hpre : ((scanLoop (b ++ [x]) s).b ++ breakBytes).take k = b ++ [x] := by
            have e : (scanLoop (b ++ [x]) s).b ++ breakBytes =
                ((b ++ [x]) ++ s).take ((scanLoop (b ++ [x]) s).b.length + 3) := by
              rw [h1, List.take_append_of_le_length (by simp [breakBytes])]
              rw [List.take_of_length_le (by simp [breakBytes])]
            rw [e, List.take_take, Nat.min_eq_left (by omega),
              List.take_append_of_le_length (by simp; omega)]
            rw [List.take_of_length_le (by simp; omega)]
          rw [hpre]; exact hb2
        · exact h2 k (by simp; omega) hk2

/-- The frames the reader closes at a delimiter are exactly the `Framed` ones. -/
theorem framed_of_scanLoop (s : List Byte) (h : (scanLoop [] s).exit = ScanExit.delimiter) :
    Framed (scanLoop [] s).b ∧ s = (scanLoop [] s).b ++ breakBytes ++ (scanLoop [] s).rest := by
  obtain ⟨h1, h2⟩ := scanLoop_delimiter_shape s [] h
  refine ⟨⟨(scanLoop_delimiter s [] h).1, scanLoop_delimiter_length s [] h, fun k hk => ?_⟩,
    by simpa using h1⟩
  by_cases hk0 : k = 0
  · subst hk0; exact breakScan_short _ (by simp)
  · exact h2 k (by simp; omega) hk

/-! # The claims -/

/-! ## The frame reader: end of stream, size guard -/

theorem quiet_of_le {ε : Type} (final : Option ε) (pending left : Nat)
    (hq : final = none ∨ pending ≤ left) :
    final = none ∨ min pending scannerBufferSize ≤ left :=
  hq.imp id (fun h => Nat.le_trans (Nat.min_le_left _ _) h)

theorem processMessages_oversized_head {σ κ τ ε : Type}
    (unmarshal : List Byte → Except ε (List σ)) (conn : κ) (t : τ) (final : Option ε)
    (pending : Nat) (c : List (signedConn σ κ τ)) (big : List Byte) (x : Byte)
    (rest : List Byte) (hno : NoMatch big) (hlen : big.length = maxMessageLength + 1) :
    processMessages unmarshal conn c t (big ++ x :: rest) final pending =
      some ⟨[], c, Exit.messageTooLong, rest⟩ := by
  unfold processMessages
  exact processLoop_oversized unmarshal conn t final pending _ big x rest [] c hno hlen

/-- C1 (as stated, refuted). The stream `01` followed by a clean end-of-stream ends
mid-frame: its only byte is no delimiter match. `processMessages` hands that
partial buffer to `sendToSignedChan`, and the unit decoded from it is enqueued. -/
theorem processMessages_unterminated_frame_handed :
    NoMatch [1] ∧
      processMessages sampleUnmarshal 7 [] () [1] none 0 =
        some ⟨[[1]], [⟨1, 7, ()⟩], Exit.emptyMessage, []⟩ :=
  ⟨noMatch_of_forall_ne _ (by decide), by decide⟩

/-- C1 (amended). After delivered frames `fs`, take a non-empty partial buffer `P`
without delimiter match and of at most `maxMessageLength + 1` bytes. When the
stream ends with a read error, `P` is discarded: the loop ends on that error, and
what was handed to the decoder and enqueued is the first `j` frames of `fs` for
some `j`, the frames closed before the failing `Read` returned; it is all of `fs`
when that `Read` brought at most the bytes of `P`. When the stream ends with a
clean end-of-stream, `P` is handed to `sendToSignedChan` as the last call; its
items follow those of the earlier frames if it decodes, and the loop ends on the
decode error if it does not. -/
theorem processMessages_unterminated_frame {σ κ τ ε : Type}
    (unmarshal : List Byte → Except ε (List σ)) (conn : κ) (t : τ) (pending : Nat)
    (c : List (signedConn σ κ τ)) (fs : List (List Byte)) (P : List Byte)
    (hdel : Delivered unmarshal fs) (hP : P ≠ []) (hno : NoMatch P)
    (hlen : P.length ≤ maxMessageLength + 1) :
    (∀ e, ∃ j unread,
      processMessages unmarshal conn c t (frames fs ++ P) (some e) pending =
        some ⟨fs.take j, c ++ unitsOf unmarshal conn t (fs.take j), Exit.scanError e,
          unread⟩) ∧
    (∀ e, pending ≤ P.length →
      processMessages unmarshal conn c t (frames fs ++ P) (some e) pending =
        some ⟨fs, c ++ unitsOf unmarshal conn t fs, Exit.scanError e, []⟩) ∧
    (∀ us, unmarshal P = Except.ok us →
      processMessages unmarshal conn c t (frames fs ++ P) none pending =
        some ⟨fs ++ [P], c ++ unitsOf unmarshal conn t fs ++ itemsOf conn t us,
          Exit.emptyMessage, []⟩) ∧
    (∀ e, unmarshal P = Except.error e →
      processMessages unmarshal conn c t (frames fs ++ P) none pending =
        some ⟨fs ++ [P], c ++ unitsOf unmarshal conn t fs, Exit.sendError e, []⟩) := by
  refine ⟨fun e => ?_, fun e hp => ?_, fun us hu => ?_, fun e hu => ?_⟩
  · obtain ⟨j, unread, hj⟩ := processLoop_frames_cut unmarshal conn t pending fs
      ((frames fs ++ P).length + 2) P [] c e hdel hno hlen (by omega)
    exact ⟨j, unread, by unfold processMessages; rw [hj]; simp⟩
  · rw [processMessages_frames unmarshal conn t (some e) pending fs P c hdel
      (quiet_of_le _ _ _ (Or.inr hp))]
    exact processLoop_unterminated_error unmarshal conn t pending _ P fs _ e hno hlen
  · rw [processMessages_frames unmarshal conn t none pending fs P c hdel (Or.inl rfl)]
    exact processLoop_unterminated_ok unmarshal conn t pending _ P fs _ us hP hno hlen hu
  · rw [processMessages_frames unmarshal conn t none pending fs P c hdel (Or.inl rfl)]
    exact processLoop_unterminated_reject unmarshal conn t pending _ P fs _ e hP hno hlen hu

/-- C1 (amended), at the stream `01 E2 8F 8E 02`. With a read error that comes with
the last byte alone, the frame `01` is delivered and `02` discarded; when the
failing `Read` brought all five bytes, nothing is delivered; with a clean
end-of-stream `02` is delivered too. -/
theorem processMessages_unterminated_frame_witness :
    Delivered sampleUnmarshal [[1]] ∧ [2] ≠ [] ∧ NoMatch [2] ∧
      [2].length ≤ maxMessageLength + 1 ∧
      processMessages sampleUnmarshal 7 [] () [1, 226, 143, 142, 2] (some 5) 1 =
        some ⟨[[1]], [⟨1, 7, ()⟩], Exit.scanError 5, []⟩ ∧
      processMessages sampleUnmarshal 7 [] () [1, 226, 143, 142, 2] (some 5) 5 =
        some ⟨[], [], Exit.scanError 5, [2]⟩ ∧
      processMessages sampleUnmarshal 7 [] () [1, 226, 143, 142, 2] none 5 =
        some ⟨[[1], [2]], [⟨1, 7, ()⟩, ⟨2, 7, ()⟩], Exit.emptyMessage, []⟩ :=
  ⟨delivered_sample, by decide, noMatch_of_forall_ne _ (by decide), by decide,
    (processMessages_unterminated_frame sampleUnmarshal 7 () 1 [] [[1]] [2] delivered_sample
      (by decide) (noMatch_of_forall_ne _ (by decide)) (by decide)).2.1 5 (by decide),
    by decide,
    (processMessages_unterminated_frame sampleUnmarshal 7 () 5 [] [[1]] [2] delivered_sample
      (by decide) (noMatch_of_forall_ne _ (by decide)) (by decide)).2.2.1 [2] rfl⟩

/-- C2 (as stated, refuted). A body of 65535 bytes `01`, within
`maxMessageLength`, decodable and without delimiter match before its closing
delimiter, is not handed to the decoder: the length guard fires on the last
delimiter byte, when the buffer holds 65537 bytes. -/
theorem processMessages_frame_65535_rejected :
    (List.replicate 65535 1).length = 65535 ∧
      NoMatch (List.replicate 65535 1 ++ [226, 143]) ∧
      sampleUnmarshal (List.replicate 65535 1) = Except.ok (List.replicate 65535 1) ∧
      processMessages sampleUnmarshal 7 [] () (List.replicate 65535 1 ++ [226, 143] ++ [142])
          none 0 =
        some ⟨[], [], Exit.messageTooLong, []⟩ :=
  ⟨List.length_replicate _ _, noMatch_replicate_one_append _,
    sampleUnmarshal_replicate_one _ (by decide),
    processMessages_oversized_head sampleUnmarshal 7 () none 0 [] _ 142 []
      (noMatch_replicate_one_append _)
      (by rw [List.length_append, List.length_replicate]; decide)⟩

/-- C2 (amended). A frame body of `n` bytes with `1 ≤ n ≤ 65534`, followed by the
delimiter and without earlier delimiter match, coming after delivered frames and
closed while no read error is pending (the stream ends cleanly, or the failing
`Read` brought no more than the bytes `rest` after the delimiter), is handed to the
decoder exactly as it is, right after those frames; if it decodes, its items are
enqueued right after theirs. -/
theorem processMessages_frame_delivered {σ κ τ ε : Type}
    (unmarshal : List Byte → Except ε (List σ)) (conn : κ) (t : τ) (final : Option ε)
    (pending : Nat) (c : List (signedConn σ κ τ)) (fs : List (List Byte))
    (F rest : List Byte)
    (hdel : Delivered unmarshal fs) (h1 : 1 ≤ F.length) (h2 : F.length ≤ 65534)
    (hno : ∀ k, k < F.length + 3 → breakScan ((F ++ breakBytes).take k) = false)
    (hq : final = none ∨ pending ≤ rest.length) :
    ∃ r, processMessages unmarshal conn c t (frames fs ++ (F ++ breakBytes ++ rest)) final
          pending = some r ∧
      (∃ more, r.handed = fs ++ [F] ++ more) ∧
      (∀ us, unmarshal F = Except.ok us →
        ∃ more, r.chan = c ++ unitsOf unmarshal conn t fs ++ itemsOf conn t us ++ more) := by
  have hF : Framed F :=
    ⟨fun h => by rw [h] at h1; simp at h1, by unfold maxMessageLength; omega, hno⟩
  have hq1 := quiet_of_le final pending rest.length hq
  have hq2 : final = none ∨
      min pending scannerBufferSize ≤ (F ++ breakBytes ++ rest).length :=
    hq1.imp id (fun h => Nat.le_trans h (by simp only [List.length_append]; omega))
  rw [processMessages_frames unmarshal conn t final pending fs _ c hdel hq2]
  cases hu : unmarshal F with
  | error e =>
    rw [processLoop_frame_error unmarshal conn t final pending _ F rest fs _ e hF hu hq1]
    exact ⟨_, rfl, ⟨[], by simp⟩, fun us h => by cases h⟩
  | ok us =>
    rw [processLoop_frame unmarshal conn t final pending _ F rest fs _ us hF hu hq1]
    have hsome := processLoop_isSome unmarshal conn t final pending
      ((F ++ breakBytes ++ rest).length + 1) rest (fs ++ [F])
      (c ++ unitsOf unmarshal conn t fs ++ itemsOf conn t us)
      (by simp only [List.length_append]; omega)
    obtain ⟨r, hr⟩ := Option.isSome_iff_exists.mp hsome
    obtain ⟨hh, hc⟩ := processLoop_extends unmarshal conn t final pending _ _ _ _ r hr
    refine ⟨r, hr, hh, fun us2 h => ?_⟩
    cases h
    exact hc

/-- C2 (amended), at the stream `01 E2 8F 8E 02 03 E2 8F 8E 04` ended by a read
error that comes with the last byte alone. -/
theorem processMessages_frame_delivered_witness :
    Delivered sampleUnmarshal [[1]] ∧ 1 ≤ [2, 3].length ∧ [2, 3].length ≤ 65534 ∧
      ((some 5 : Option Nat) = none ∨ 1 ≤ [4].length) ∧
      ∃ r, processMessages sampleUnmarshal 7 [] ()
          (frames [[1]] ++ ([2, 3] ++ breakBytes ++ [4])) (some 5) 1 = some r ∧
        (∃ more, r.handed = [[1]] ++ [[2, 3]] ++ more) ∧
        (∀ us, sampleUnmarshal [2, 3] = Except.ok us →
          ∃ more, r.chan = [] ++ unitsOf sampleUnmarshal 7 () [[1]] ++ itemsOf 7 () us ++ more) :=
  ⟨delivered_sample, by decide, by decide, by decide,
    processMessages_frame_delivered sampleUnmarshal 7 () (some 5) 1 [] [[1]] [2, 3] [4]
      delivered_sample (by decide) (by decide) (by decide) (by decide)⟩

/-- C3. After delivered frames, once `maxMessageLength + 1` bytes (more than 65536)
have accumulated without delimiter match and one more byte `x` arrives,
`processMessages` returns: the oversized buffer is not handed to the decoder,
nothing is enqueued for it, and the bytes `rest` after `x` are never read, whatever
they are. This holds however the stream ends: the frames before the oversized
buffer are closed more than 65537 bytes before the end of the stream, out of reach
of the last `Read`. -/
theorem processMessages_oversized {σ κ τ ε : Type}
    (unmarshal : List Byte → Except ε (List σ)) (conn : κ) (t : τ) (final : Option ε)
    (pending : Nat) (c : List (signedConn σ κ τ)) (fs : List (List Byte)) (big : List Byte)
    (x : Byte) (rest : List Byte) (hdel : Delivered unmarshal fs)
    (hlen : big.length = maxMessageLength + 1) (hno : NoMatch big) :
    processMessages unmarshal conn c t (frames fs ++ (big ++ x :: rest)) final pending =
      some ⟨fs, c ++ unitsOf unmarshal conn t fs, Exit.messageTooLong, rest⟩ := by
  have hq : final = none ∨ min pending scannerBufferSize ≤ (big ++ x :: rest).length :=
    Or.inr (Nat.le_trans (Nat.min_le_right _ _) (by
      rw [List.length_append, hlen]
      unfold scannerBufferSize maxMessageLength
      omega))
  rw [processMessages_frames unmarshal conn t final pending fs _ c hdel hq]
  exact processLoop_oversized unmarshal conn t final pending _ big x rest fs _ hno hlen

/-- C3, at the frame `01` followed by 65537 bytes `01`, one byte `00` and a frame,
on a stream ended by a read error whose `Read` brought 4096 bytes. -/
theorem processMessages_oversized_witness :
    Delivered sampleUnmarshal [[1]] ∧
      (List.replicate 65537 1).length = maxMessageLength + 1 ∧
      NoMatch (List.replicate 65537 1) ∧
      processMessages sampleUnmarshal 7 [] ()
          (frames [[1]] ++ (List.replicate 65537 1 ++ 0 :: [5, 226, 143, 142])) (some 5)
          4096 =
        some ⟨[[1]], [] ++ unitsOf sampleUnmarshal 7 () [[1]], Exit.messageTooLong,
          [5, 226, 143, 142]⟩ :=
  ⟨delivered_sample, by rw [List.length_replicate]; decide, noMatch_replicate_one _,
    processMessages_oversized sampleUnmarshal 7 () (some 5) 4096 [] [[1]] _ 0
      [5, 226, 143, 142]
      delivered_sample (by rw [List.length_replicate]; decide) (noMatch_replicate_one _)⟩

theorem processMessages_unterminated_head {σ κ τ ε : Type}
    (unmarshal : List Byte → Except ε (List σ)) (conn : κ) (t : τ) (pending : Nat)
    (P : List Byte) (us : List σ) (hP : P ≠ []) (hno : NoMatch P)
    (hlen : P.length ≤ maxMessageLength + 1) (hu : unmarshal P = Except.ok us) :
    processMessages unmarshal conn ([] : List (signedConn σ κ τ)) t P (none : Option ε)
        pending =
      some ⟨[P], itemsOf conn t us, Exit.emptyMessage, []⟩ := by
  unfold processMessages
  rw [processLoop_unterminated_ok unmarshal conn t pending _ P [] [] us hP hno hlen hu]
  simp

theorem replicate_one_ne_nil (n : Nat) (h : 0 < n) : List.replicate n (1 : Byte) ≠ [] := by
  intro e
  have := congrArg List.length e
  rw [List.length_replicate] at this
  simp at this
  omega

/-- C4 (as stated, refuted). A stream of 65537 bytes `01` followed by a clean
end-of-stream: the buffer handed to `sendToSignedChan` holds all 65537 bytes, one
more than `maxMessageLength`. -/
theorem processMessages_hands_65537 :
    (List.replicate 65537 1).length = 65537 ∧
      processMessages sampleUnmarshal 7 [] () (List.replicate 65537 1) none 0 =
        some ⟨[List.replicate 65537 1], itemsOf 7 () (List.replicate 65537 1),
          Exit.emptyMessage, []⟩ :=
  ⟨List.length_replicate _ _,
    processMessages_unterminated_head sampleUnmarshal 7 () 0 _ _
      (replicate_one_ne_nil _ (by decide)) (noMatch_replicate_one _)
      (by rw [List.length_replicate]; decide)
      (sampleUnmarshal_replicate_one _ (by decide))⟩

/-- C4 (amended). For every input stream, `processMessages` stops, every byte
sequence it handed to `sendToSignedChan` has at most `maxMessageLength + 1 = 65537`
bytes, and every one but the last (each of those was closed by a delimiter) has at
most `maxMessageLength - 2 = 65534` bytes. -/
theorem processMessages_handed_length {σ κ τ ε : Type}
    (unmarshal : List Byte → Except ε (List σ)) (conn : κ) (t : τ) (final : Option ε)
    (pending : Nat) (c : List (signedConn σ κ τ)) (input : List Byte) :
    ∃ r, processMessages unmarshal conn c t input final pending = some r ∧
      (∀ b ∈ r.handed, b.length ≤ maxMessageLength + 1) ∧
      (∀ b ∈ r.handed.dropLast, b.length + 2 ≤ maxMessageLength) := by
  have hsome := processLoop_isSome unmarshal conn t final pending (input.length + 2) input
    [] c (by omega)
  obtain ⟨r, hr⟩ := Option.isSome_iff_exists.mp hsome
  exact ⟨r, hr, processLoop_handed_length unmarshal conn t final pending _ input [] c r
    (fun b hb => absurd hb (List.not_mem_nil _)) hr⟩

/-! ## The frame reader: delimiter, order, decode failure -/

section
variable {σ κ τ ε : Type} (unmarshal : List Byte → Except ε (List σ)) (conn : κ) (t : τ)
  (final : Option ε) (pending : Nat)

/-- The outer loop is left on the empty buffer only when the scanner has nothing
more to deliver. -/
theorem processLoop_emptyMessage (n : Nat) :
    ∀ (s : List Byte) (hd : List (List Byte)) (c : List (signedConn σ κ τ)) (r : Run σ κ τ ε),
      processLoop unmarshal conn t final pending n s hd c = some r →
      r.exit = Exit.emptyMessage → r.unread = [] := by
  induction n with
  | zero => intro s hd c r h; simp [processLoop] at h
  | succ n ih =>
    intro s hd c r hr hexit
    by_cases h : (scanLoop [] s).exit = ScanExit.tooLong
    · rw [processLoop_tooLong _ _ _ _ _ n s hd c h] at hr
      cases hr; cases hexit
    · cases he : scannerErr final pending (scanLoop [] s) with
      | some e =>
        rw [processLoop_scanError _ _ _ _ _ n s hd c e h he] at hr
        cases hr; cases hexit
      | none =>
        by_cases hb : (scanLoop [] s).b = []
        · rw [processLoop_empty _ _ _ _ _ n s hd c h he hb] at hr
          cases hr
          cases hx : (scanLoop [] s).exit with
          | tooLong => exact absurd hx h
          | delimiter => exact absurd hb (scanLoop_delimiter s [] hx).1
          | exhausted => exact scanLoop_exhausted s [] hx
        · cases hu : unmarshal (scanLoop [] s).b with
          | error e =>
            rw [processLoop_send_error _ _ _ _ _ n s hd c e h he hb hu] at hr
            cases hr; cases hexit
          | ok us =>
            rw [processLoop_send_ok _ _ _ _ _ n s hd c us h he hb hu] at hr
            exact ih _ _ _ r hr hexit

end

theorem scanLoop_breakBytes (tail : List Byte) :
    scanLoop [] (breakBytes ++ tail) = scanLoop breakBytes tail := by
  have h := scanLoop_append breakBytes [] tail (by decide)
    (fun k _ hk => breakScan_short _ (by
      simp only [List.nil_append, List.length_take]
      exact Nat.le_trans (Nat.min_le_right _ _) (by decide)))
  simpa using h

/-- C5 (the code at the failing input). The stream `E2 8F 8E 01 E2 8F 8E`, then a
clean end-of-stream, begins with the delimiter: a message of zero bytes. The read
loop does not end there: `breakScan` does not match on three bytes, the three
delimiter bytes stay in the buffer, the decoder is called on `E2 8F 8E 01`, and
items derived from the bytes after the first delimiter are enqueued. -/
theorem processMessages_leading_delimiter :
    breakScan [226, 143, 142] = false ∧
      scanLoop [] [226, 143, 142, 1, 226, 143, 142] =
        ⟨ScanExit.delimiter, [226, 143, 142, 1], []⟩ ∧
      processMessages sampleUnmarshal 7 [] () [226, 143, 142, 1, 226, 143, 142] none 0 =
        some ⟨[[226, 143, 142, 1]],
          [⟨226, 7, ()⟩, ⟨143, 7, ()⟩, ⟨142, 7, ()⟩, ⟨1, 7, ()⟩], Exit.emptyMessage, []⟩ := by
  decide

/-- C6 (as stated, refuted). The buffer `E2 8F 8E` holds three bytes and its last
three bytes are `breakBytes`, yet `breakScan` returns false. -/
theorem breakScan_three_bytes :
    3 ≤ [226, 143, 142].length ∧
      [226, 143, 142].drop ([226, 143, 142].length - 3) = breakBytes ∧
      breakScan [226, 143, 142] = false := by
  decide

/-- C6 (amended). The call `breakScan buf` returns true exactly when the buffer
holds more than 3 bytes and its last 3 bytes are `breakBytes`. When it returns true
on the buffer just written, the inner loop of `processMessages` is left with the
buffer cut by exactly those 3 trailing bytes: the buffer was that frame followed by
`breakBytes`. -/
theorem breakScan_iff_more_than_three (buf b : List Byte) (x : Byte) (rest : List Byte) :
    (breakScan buf = true ↔ 3 < buf.length ∧ buf.drop (buf.length - 3) = breakBytes) ∧
      (b.length ≤ maxMessageLength → breakScan (b ++ [x]) = true →
        (scanLoop b (x :: rest)).exit = ScanExit.delimiter ∧
        (scanLoop b (x :: rest)).rest = rest ∧
        (scanLoop b (x :: rest)).b ++ breakBytes = b ++ [x] ∧
        (scanLoop b (x :: rest)).b.length + 3 = (b ++ [x]).length) := by
  refine ⟨breakScan_eq_true_iff_length buf, fun hlen hb => ?_⟩
  rw [scanLoop_cons_break b x rest hlen hb]
  obtain ⟨f, _, he⟩ := (breakScan_eq_true_iff _).mp hb
  have h3 : (f ++ breakBytes).length - 3 = f.length := by simp [breakBytes]
  refine ⟨rfl, rfl, ?_, ?_⟩
  · simp only
    rw [he, h3, List.take_left]
  · simp only
    rw [he, h3, List.take_left]
    simp [breakBytes]

/-- C6 (amended), at the buffer `01 E2 8F` when the byte `8E` arrives. -/
theorem breakScan_iff_more_than_three_witness :
    [1, 226, 143].length ≤ maxMessageLength ∧ breakScan ([1, 226, 143] ++ [142]) = true ∧
      (scanLoop [1, 226, 143] (142 :: [5])).exit = ScanExit.delimiter ∧
      (scanLoop [1, 226, 143] (142 :: [5])).rest = [5] ∧
      (scanLoop [1, 226, 143] (142 :: [5])).b ++ breakBytes = [1, 226, 143] ++ [142] ∧
      (scanLoop [1, 226, 143] (142 :: [5])).b.length + 3 = ([1, 226, 143] ++ [142]).length :=
  ⟨by decide, by decide,
    (breakScan_iff_more_than_three [] [1, 226, 143] 142 [5]).2 (by decide) (by decide)⟩

/-- C7 (as stated, refuted). Frames `F1` of 65535 bytes `01` and `F2 = 01` are not
empty, within `maxMessageLength`, decodable and without early delimiter match, yet
on `F1 ++ delimiter ++ F2 ++ delimiter` nothing is enqueued: the length guard fires
on the last byte of the first delimiter. -/
theorem processMessages_two_frames_65535 :
    (List.replicate 65535 1).length ≤ maxMessageLength ∧
      NoMatch (List.replicate 65535 1 ++ [226, 143]) ∧
      sampleUnmarshal (List.replicate 65535 1) = Except.ok (List.replicate 65535 1) ∧
      sampleUnmarshal [1] = Except.ok [1] ∧
      processMessages sampleUnmarshal 7 [] ()
          (List.replicate 65535 1 ++ [226, 143] ++ 142 :: ([1] ++ breakBytes)) none 0 =
        some ⟨[], [], Exit.messageTooLong, [1] ++ breakBytes⟩ :=
  ⟨by rw [List.length_replicate]; decide, noMatch_replicate_one_append _,
    sampleUnmarshal_replicate_one _ (by decide), rfl,
    processMessages_oversized_head sampleUnmarshal 7 () none 0 [] _ 142 _
      (noMatch_replicate_one_append _)
      (by rw [List.length_append, List.length_replicate]; decide)⟩

/-- C7 (amended). For frames `F1` and `F2` that are not empty, of at most 65534
bytes, decodable, and without delimiter match before their closing delimiter, on a
stream `F1 ++ delimiter ++ F2 ++ delimiter` that ends cleanly or with a read error
returned by a `Read` of its own (no byte of the stream comes with the error),
`processMessages` hands `F1` then `F2` to the decoder, each from a fresh buffer,
and enqueues the units of `F1` in envelope order followed by the units of `F2` in
envelope order. -/
theorem processMessages_two_frames {σ κ τ ε : Type}
    (unmarshal : List Byte → Except ε (List σ)) (conn : κ) (t : τ) (final : Option ε)
    (pending : Nat) (c : List (signedConn σ κ τ)) (F1 F2 : List Byte) (us1 us2 : List σ)
    (h1 : Framed F1) (h2 : Framed F2)
    (hu1 : unmarshal F1 = Except.ok us1) (hu2 : unmarshal F2 = Except.ok us2) :
    (final = none ∨ pending = 0) →
    processMessages unmarshal conn c t (F1 ++ breakBytes ++ (F2 ++ breakBytes)) final
        pending =
      some ⟨[F1, F2],
        c ++ us1.map (fun u => ⟨u, conn, t⟩) ++ us2.map (fun u => ⟨u, conn, t⟩),
        (match final with
          | some e => Exit.scanError e
          | none => Exit.emptyMessage), []⟩ := by
  intro hq
  have hdel : Delivered unmarshal [F1, F2] := by
    intro F hF
    rcases List.mem_cons.mp hF with rfl | hF
    · exact ⟨h1, us1, hu1⟩
    · rw [List.mem_singleton.mp hF]; exact ⟨h2, us2, hu2⟩
  have h := processMessages_frames unmarshal conn t final pending [F1, F2] [] c hdel
    (quiet_of_le _ _ _ (hq.imp id (fun h0 => by rw [h0]; exact Nat.zero_le _)))
  have e : frames [F1, F2] ++ [] = F1 ++ breakBytes ++ (F2 ++ breakBytes) := by
    simp [frames]
  rw [e, processLoop_nil] at h
  rw [h]
  simp [unitsOf, hu1, hu2, itemsOf]

/-- C7 (amended), at the stream `01 E2 8F 8E 02 03 E2 8F 8E`, ended cleanly and
ended by a read error returned by a `Read` of its own. -/
theorem processMessages_two_frames_witness :
    Framed [1] ∧ Framed [2, 3] ∧ sampleUnmarshal [1] = Except.ok [1] ∧
      sampleUnmarshal [2, 3] = Except.ok [2, 3] ∧
      processMessages sampleUnmarshal 7 [] () [1, 226, 143, 142, 2, 3, 226, 143, 142] none 4 =
        some ⟨[[1], [2, 3]], [⟨1, 7, ()⟩, ⟨2, 7, ()⟩, ⟨3, 7, ()⟩], Exit.emptyMessage, []⟩ ∧
      processMessages sampleUnmarshal 7 [] () [1, 226, 143, 142, 2, 3, 226, 143, 142]
          (some 5) 0 =
        some ⟨[[1], [2, 3]], [⟨1, 7, ()⟩, ⟨2, 7, ()⟩, ⟨3, 7, ()⟩], Exit.scanError 5, []⟩ :=
  ⟨framed_one, framed_two, rfl, rfl,
    processMessages_two_frames sampleUnmarshal 7 () none 4 [] [1] [2, 3] [1] [2, 3]
      framed_one framed_two rfl rfl (Or.inl rfl),
    processMessages_two_frames sampleUnmarshal 7 () (some 5) 0 [] [1] [2, 3] [1] [2, 3]
      framed_one framed_two rfl rfl (Or.inr rfl)⟩

/-- C8. When the buffer `b` decodes to the units `us`, `sendToSignedChan` returns
no error, leaves the buffer empty and appends to the channel one item per unit, in
envelope order, the `i`-th carrying the `i`-th unit with the connection and the
tracker; so exactly `us.length` items are added. When moreover `b` is a frame the
reader completes and the stream `b ++ delimiter` ends cleanly or with a read error
returned by a `Read` of its own, `processMessages` enqueues exactly those items; an
envelope of two units gives two items in envelope order. -/
theorem sendToSignedChan_enqueues {σ κ τ ε : Type}
    (unmarshal : List Byte → Except ε (List σ)) (conn : κ) (t : τ) (final : Option ε)
    (pending : Nat) (c : List (signedConn σ κ τ)) (b : List Byte) (us : List σ)
    (hu : unmarshal b = Except.ok us) :
    sendToSignedChan unmarshal b conn c t =
        (none, [], c ++ us.map (fun u => ⟨u, conn, t⟩)) ∧
      (sendToSignedChan unmarshal b conn c t).2.2.length = c.length + us.length ∧
      (Framed b → (final = none ∨ pending = 0) →
        processMessages unmarshal conn c t (b ++ breakBytes) final pending =
          some ⟨[b], c ++ us.map (fun u => ⟨u, conn, t⟩),
            (match final with
              | some e => Exit.scanError e
              | none => Exit.emptyMessage), []⟩) := by
  have hs := sendToSignedChan_ok unmarshal conn t b c us hu
  refine ⟨hs, by rw [hs]; simp [itemsOf], fun hF hq => ?_⟩
  have hdel : Delivered unmarshal [b] := by
    intro F hF2
    rw [List.mem_singleton.mp hF2]; exact ⟨hF, us, hu⟩
  have h := processMessages_frames unmarshal conn t final pending [b] [] c hdel
    (quiet_of_le _ _ _ (hq.imp id (fun h0 => by rw [h0]; exact Nat.zero_le _)))
  have e : frames [b] ++ [] = b ++ breakBytes := by simp [frames]
  rw [e, processLoop_nil] at h
  rw [h]
  simp [unitsOf, hu, itemsOf]

/-- C8, at the envelope `02 03` of two units followed by the delimiter and a clean
end-of-stream. -/
theorem sendToSignedChan_enqueues_witness :
    sampleUnmarshal [2, 3] = Except.ok [2, 3] ∧ Framed [2, 3] ∧
      sendToSignedChan sampleUnmarshal [2, 3] 7 [] () =
        (none, [], [⟨2, 7, ()⟩, ⟨3, 7, ()⟩]) ∧
      processMessages sampleUnmarshal 7 [] () [2, 3, 226, 143, 142] none 5 =
        some ⟨[[2, 3]], [⟨2, 7, ()⟩, ⟨3, 7, ()⟩], Exit.emptyMessage, []⟩ :=
  ⟨rfl, framed_two,
    (sendToSignedChan_enqueues sampleUnmarshal 7 () none 5 [] [2, 3] [2, 3] rfl).1,
    (sendToSignedChan_enqueues sampleUnmarshal 7 () none 5 [] [2, 3] [2, 3] rfl).2.2
      framed_two (Or.inl rfl)⟩

section
variable {σ κ τ ε : Type} (unmarshal : List Byte → Except ε (List σ)) (conn : κ) (t : τ)
  (final : Option ε) (pending : Nat)

/-- What the outer loop enqueues is the items of the buffers it handed to the
decoder; every one of them but the last decoded, and when the last did not, the loop
ended on its decode error. -/
theorem processLoop_decoded (n : Nat) :
    ∀ (s : List Byte) (hd : List (List Byte)) (c : List (signedConn σ κ τ)) (r : Run σ κ τ ε),
      (∀ F ∈ hd, ∃ us, unmarshal F = Except.ok us) →
      processLoop unmarshal conn t final pending n s hd c = some r →
      (∃ more, r.handed = hd ++ more ∧ r.chan = c ++ unitsOf unmarshal conn t more) ∧
        (∀ F ∈ r.handed.dropLast, ∃ us, unmarshal F = Except.ok us) ∧
        (∀ F e, r.handed.getLast? = some F → unmarshal F = Except.error e →
          r.exit = Exit.sendError e) := by
  induction n with
  | zero => intro s hd c r _ h; simp [processLoop] at h
  | succ n ih =>
    intro s hd c r hhd hr
    have hsame : ∀ r : Run σ κ τ ε, r.handed = hd → r.chan = c →
        (∃ more, r.handed = hd ++ more ∧ r.chan = c ++ unitsOf unmarshal conn t more) ∧
          (∀ F ∈ r.handed.dropLast, ∃ us, unmarshal F = Except.ok us) ∧
          (∀ F e, r.handed.getLast? = some F → unmarshal F = Except.error e →
            r.exit = Exit.sendError e) := by
      intro r h1 h2
      refine ⟨⟨[], by simp [h1], by simp [h2, unitsOf]⟩,
        fun F hF => hhd F (by rw [h1] at hF; exact List.mem_of_mem_dropLast hF),
        fun F e hl hu => ?_⟩
      rw [h1] at hl
      obtain ⟨us, hok⟩ := hhd F (List.mem_of_getLast?_eq_some hl)
      rw [hok] at hu
      cases hu
    by_cases h : (scanLoop [] s).exit = ScanExit.tooLong
    · rw [processLoop_tooLong _ _ _ _ _ n s hd c h] at hr
      cases hr; exact hsame _ rfl rfl
    · cases he : scannerErr final pending (scanLoop [] s) with
      | some e =>
        rw [processLoop_scanError _ _ _ _ _ n s hd c e h he] at hr
        cases hr; exact hsame _ rfl rfl
      | none =>
        by_cases hb : (scanLoop [] s).b = []
        · rw [processLoop_empty _ _ _ _ _ n s hd c h he hb] at hr
          cases hr; exact hsame _ rfl rfl
        · cases hu : unmarshal (scanLoop [] s).b with
          | error e =>
            rw [processLoop_send_error _ _ _ _ _ n s hd c e h he hb hu] at hr
            cases hr
            refine ⟨⟨[(scanLoop [] s).b], rfl, by simp [unitsOf, hu]⟩, ?_, ?_⟩
            · simp only [List.dropLast_concat]
              exact hhd
            · intro F e2 hl hu2
              rw [List.getLast?_concat] at hl
              cases hl
              rw [hu] at hu2
              cases hu2
              rfl
          | ok us =>
            rw [processLoop_send_ok _ _ _ _ _ n s hd c us h he hb hu] at hr
            have hhd2 : ∀ F ∈ hd ++ [(scanLoop [] s).b], ∃ us, unmarshal F = Except.ok us := by
              intro F hF
              rcases List.mem_append.mp hF with h1 | h1
              · exact hhd F h1
              · rw [List.mem_singleton.mp h1]; exact ⟨us, hu⟩
            obtain ⟨⟨more, hm1, hm2⟩, h2, h3⟩ := ih _ _ _ r hhd2 hr
            refine ⟨⟨(scanLoop [] s).b :: more, by rw [hm1]; simp, ?_⟩, h2, h3⟩
            rw [hm2]
            simp [unitsOf, hu]

end

/-- C9. When the buffer `F` does not decode, `sendToSignedChan` returns the decode
error and leaves the channel as it was. When moreover `F` is a frame the reader
completes, coming after delivered frames and closed while no read error is pending
(the stream ends cleanly, or the failing `Read` brought no more than the bytes
`rest` after the delimiter), `processMessages` ends its read loop on the decode
error: the channel holds the items of the earlier frames and nothing else, and the
bytes `rest` after the frame are never read. And on every stream, however it ends:
the items enqueued are those of the buffers handed to the decoder, a buffer that
does not decode adding none; every handed buffer but the last decoded; and when the
last did not, the loop ended on its decode error. -/
theorem processMessages_decode_failure {σ κ τ ε : Type}
    (unmarshal : List Byte → Except ε (List σ)) (conn : κ) (t : τ) (final : Option ε)
    (pending : Nat) (c : List (signedConn σ κ τ)) (fs : List (List Byte))
    (F rest input : List Byte) (e : ε)
    (hu : unmarshal F = Except.error e) :
    sendToSignedChan unmarshal F conn c t = (some e, [], c) ∧
      (Delivered unmarshal fs → Framed F → (final = none ∨ pending ≤ rest.length) →
        processMessages unmarshal conn c t (frames fs ++ (F ++ breakBytes ++ rest)) final
            pending =
          some ⟨fs ++ [F], c ++ unitsOf unmarshal conn t fs, Exit.sendError e, rest⟩) ∧
      (∃ r, processMessages unmarshal conn c t input final pending = some r ∧
        r.chan = c ++ unitsOf unmarshal conn t r.handed ∧
        (∀ G ∈ r.handed.dropLast, ∃ us, unmarshal G = Except.ok us) ∧
        (∀ G e2, r.handed.getLast? = some G → unmarshal G = Except.error e2 →
          r.exit = Exit.sendError e2)) := by
  refine ⟨sendToSignedChan_error unmarshal conn t F c e hu, fun hdel hF hq => ?_, ?_⟩
  · have hq1 := quiet_of_le final pending rest.length hq
    rw [processMessages_frames unmarshal conn t final pending fs _ c hdel
      (hq1.imp id (fun h => Nat.le_trans h (by simp only [List.length_append]; omega)))]
    exact processLoop_frame_error unmarshal conn t final pending _ F rest fs _ e hF hu hq1
  · have hsome := processLoop_isSome unmarshal conn t final pending (input.length + 2) input
      [] c (by omega)
    obtain ⟨r, hr⟩ := Option.isSome_iff_exists.mp hsome
    obtain ⟨⟨more, hm1, hm2⟩, h2, h3⟩ := processLoop_decoded unmarshal conn t final pending _
      input [] c r (fun G hG => absurd hG (List.not_mem_nil _)) hr
    refine ⟨r, hr, ?_, h2, h3⟩
    rw [hm2, hm1, List.nil_append]

theorem framed_zero : Framed [0, 4] := ⟨by decide, by decide, by decide⟩

/-- C9, at the stream `01 E2 8F 8E 00 04 E2 8F 8E 02 03 E2 8F 8E` whose second
frame is rejected by the decoder, ended by a read error whose `Read` brought the
last five bytes. -/
theorem processMessages_decode_failure_witness :
    sampleUnmarshal [0, 4] = Except.error 9 ∧ Delivered sampleUnmarshal [[1]] ∧
      Framed [0, 4] ∧ ((some 5 : Option Nat) = none ∨ 5 ≤ [2, 3, 226, 143, 142].length) ∧
      sendToSignedChan sampleUnmarshal [0, 4] 7 [⟨1, 7, ()⟩] () = (some 9, [], [⟨1, 7, ()⟩]) ∧
      processMessages sampleUnmarshal 7 [] ()
          [1, 226, 143, 142, 0, 4, 226, 143, 142, 2, 3, 226, 143, 142] (some 5) 5 =
        some ⟨[[1], [0, 4]], [⟨1, 7, ()⟩], Exit.sendError 9, [2, 3, 226, 143, 142]⟩ :=
  ⟨rfl, delivered_sample, framed_zero, by decide,
    (processMessages_decode_failure sampleUnmarshal 7 () none 0 [⟨1, 7, ()⟩] [] [0, 4] [] []
      9 rfl).1,
    (processMessages_decode_failure sampleUnmarshal 7 () (some 5) 5 [] [[1]] [0, 4]
      [2, 3, 226, 143, 142] [] 9 rfl).2.1 delivered_sample framed_zero (by decide)⟩

/-! ## The event processor -/

section
variable {σ κ τ ε ω : Type} (k : Collab σ κ τ ε ω) (sc : signedConn σ κ τ) (w : ω)

/-- No session and a registration that fails: the error is returned and nothing
else is called. -/
theorem processReceivedMessage_refused (e : ε) (w1 : ω)
    (hs : k.getTrackerData sc.tracker sc.conn w = none)
    (hr : k.registerClient sc w = (some e, w1)) :
    processReceivedMessage k sc w =
      (Outcome.returned (some e), w1, [Call.registerClient sc]) := by
  unfold processReceivedMessage
  rw [hs]
  simp only [Option.isNone_none, if_true, hr]

/-- No session and a registration that succeeds: what follows depends on the
session and the pool the registration left. -/
theorem processReceivedMessage_admitted (w1 : ω)
    (hs : k.getTrackerData sc.tracker sc.conn w = none)
    (hr : k.registerClient sc w = (none, w1)) :
    (k.getTrackerData sc.tracker sc.conn w1 = none →
      processReceivedMessage k sc w =
        (Outcome.nilDereference, w1, [Call.registerClient sc])) ∧
    (∀ pd, k.getTrackerData sc.tracker sc.conn w1 = some pd →
      k.getPoolSize sc.tracker pd.pool w1 = k.poolSize sc.tracker w1 →
      processReceivedMessage k sc w =
        (Outcome.returned none, k.announceStart sc w1,
          [Call.registerClient sc, Call.announceStart sc])) ∧
    (∀ pd, k.getTrackerData sc.tracker sc.conn w1 = some pd →
      k.getPoolSize sc.tracker pd.pool w1 ≠ k.poolSize sc.tracker w1 →
      processReceivedMessage k sc w =
        (Outcome.returned none, w1, [Call.registerClient sc])) := by
  refine ⟨fun hg => ?_, fun pd hg heq => ?_, fun pd hg hne => ?_⟩
  · unfold processReceivedMessage
    rw [hs]
    simp only [Option.isNone_none, if_true, hr, hg]
  · unfold processReceivedMessage
    rw [hs]
    simp only [Option.isNone_none, if_true, hr, hg, heq]
  · unfold processReceivedMessage
    rw [hs]
    simp only [Option.isNone_none, if_true, hr, hg, hne, if_false]

/-- A session and a verification that fails. -/
theorem processReceivedMessage_unverified (pd : playerData) (e : ε) (w1 : ω)
    (hs : k.getTrackerData sc.tracker sc.conn w = some pd)
    (hv : k.verifyMessage sc w = (some e, w1)) :
    processReceivedMessage k sc w =
      (Outcome.returned (some e), w1, [Call.verifyMessage sc]) := by
  unfold processReceivedMessage
  rw [hs]
  simp only [Option.isNone_some, Bool.false_eq_true, if_false, hv]

/-- A session and a verification that succeeds. -/
theorem processReceivedMessage_verified (pd : playerData) (w1 : ω)
    (hs : k.getTrackerData sc.tracker sc.conn w = some pd)
    (hv : k.verifyMessage sc w = (none, w1)) :
    processReceivedMessage k sc w =
      (Outcome.returned (k.broadcastMessage sc w1).1, (k.broadcastMessage sc w1).2,
        [Call.verifyMessage sc, Call.broadcastMessage sc]) := by
  unfold processReceivedMessage
  rw [hs]
  simp only [Option.isNone_some, Bool.false_eq_true, if_false, hv]

end

/-- C10. For an item whose connection has no tracker session,
`processReceivedMessage` is a registration and nothing else. It applies
`registerClient` to the state; when that fails it returns the error on the state
registration left; when it succeeds it returns nil on that state, to which
`announceStart` is applied exactly when the pool of the new session has the target
size (and it stops on a nil dereference if registration left no session). In each
case the calls made are `registerClient`, followed at most by `announceStart`:
neither `verifyMessage` nor `broadcastMessage` is called and neither is applied to
the state, whatever the unit holds. For an item whose connection has a session the
result is that of `verifyMessage` and, after it, `broadcastMessage`, and
`registerClient` is never called. -/
theorem processReceivedMessage_gating {σ κ τ ε ω : Type} (k : Collab σ κ τ ε ω)
    (sc : signedConn σ κ τ) (w : ω) :
    (k.getTrackerData sc.tracker sc.conn w = none →
      (∀ e w1, k.registerClient sc w = (some e, w1) →
        processReceivedMessage k sc w =
          (Outcome.returned (some e), w1, [Call.registerClient sc])) ∧
      (∀ w1 pd, k.registerClient sc w = (none, w1) →
        k.getTrackerData sc.tracker sc.conn w1 = some pd →
        k.getPoolSize sc.tracker pd.pool w1 = k.poolSize sc.tracker w1 →
        processReceivedMessage k sc w =
          (Outcome.returned none, k.announceStart sc w1,
            [Call.registerClient sc, Call.announceStart sc])) ∧
      (∀ w1 pd, k.registerClient sc w = (none, w1) →
        k.getTrackerData sc.tracker sc.conn w1 = some pd →
        k.getPoolSize sc.tracker pd.pool w1 ≠ k.poolSize sc.tracker w1 →
        processReceivedMessage k sc w =
          (Outcome.returned none, w1, [Call.registerClient sc])) ∧
      (∀ w1, k.registerClient sc w = (none, w1) →
        k.getTrackerData sc.tracker sc.conn w1 = none →
        processReceivedMessage k sc w =
          (Outcome.nilDereference, w1, [Call.registerClient sc])) ∧
      Call.registerClient sc ∈ (processReceivedMessage k sc w).2.2 ∧
      ∀ sc2, Call.verifyMessage sc2 ∉ (processReceivedMessage k sc w).2.2 ∧
        Call.broadcastMessage sc2 ∉ (processReceivedMessage k sc w).2.2) ∧
    (∀ pd, k.getTrackerData sc.tracker sc.conn w = some pd →
      (∀ e w1, k.verifyMessage sc w = (some e, w1) →
        processReceivedMessage k sc w =
          (Outcome.returned (some e), w1, [Call.verifyMessage sc])) ∧
      (∀ w1, k.verifyMessage sc w = (none, w1) →
        processReceivedMessage k sc w =
          (Outcome.returned (k.broadcastMessage sc w1).1, (k.broadcastMessage sc w1).2,
            [Call.verifyMessage sc, Call.broadcastMessage sc])) ∧
      ∀ sc2, Call.registerClient sc2 ∉ (processReceivedMessage k sc w).2.2) := by
  constructor
  · intro hnone
    have hcases : (processReceivedMessage k sc w).2.2 = [Call.registerClient sc] ∨
        (processReceivedMessage k sc w).2.2 =
          [Call.registerClient sc, Call.announceStart sc] := by
      rcases hreg : k.registerClient sc w with ⟨_ | err, w1⟩
      · obtain ⟨h1, h2, h3⟩ := processReceivedMessage_admitted k sc w w1 hnone hreg
        cases hget : k.getTrackerData sc.tracker sc.conn w1 with
        | none => rw [h1 hget]; exact Or.inl rfl
        | some pd =>
          by_cases heq : k.getPoolSize sc.tracker pd.pool w1 = k.poolSize sc.tracker w1
          · rw [h2 pd hget heq]; exact Or.inr rfl
          · rw [h3 pd hget heq]; exact Or.inl rfl
      · rw [processReceivedMessage_refused k sc w err w1 hnone hreg]; exact Or.inl rfl
    refine ⟨fun e w1 hr => processReceivedMessage_refused k sc w e w1 hnone hr,
      fun w1 pd hr hg heq => (processReceivedMessage_admitted k sc w w1 hnone hr).2.1 pd hg heq,
      fun w1 pd hr hg hne => (processReceivedMessage_admitted k sc w w1 hnone hr).2.2 pd hg hne,
      fun w1 hr hg => (processReceivedMessage_admitted k sc w w1 hnone hr).1 hg, ?_,
      fun sc2 => ?_⟩
    · rcases hcases with h | h <;> rw [h] <;> simp
    · rcases hcases with h | h <;> rw [h] <;> simp
  · intro pd hsome
    refine ⟨fun e w1 hv => processReceivedMessage_unverified k sc w pd e w1 hsome hv,
      fun w1 hv => processReceivedMessage_verified k sc w pd w1 hsome hv, fun sc2 => ?_⟩
    rcases hv : k.verifyMessage sc w with ⟨_ | err, w1⟩
    · rw [processReceivedMessage_verified k sc w pd w1 hsome hv]; simp
    · rw [processReceivedMessage_unverified k sc w pd err w1 hsome hv]; simp

/-- C10, at units from connection 3 and target size 2. With no session and
connection 4 registered, the registration brings the pool to 2 members:
`registerClient` and `announceStart` are applied to the state, nothing else. With
no session and message 0 the registration fails. With a session the unit is
verified and broadcast. -/
theorem processReceivedMessage_gating_witness :
    sampleRounds.getTrackerData () 3 ([4], 0) = none ∧
      sampleRounds.registerClient ⟨5, 3, ()⟩ ([4], 0) = (none, ([4, 3], 0)) ∧
      sampleRounds.registerClient ⟨0, 3, ()⟩ ([4], 0) = (some 1, ([4], 0)) ∧
      sampleRounds.getTrackerData () 3 ([4, 3], 0) = some ⟨0⟩ ∧
      processReceivedMessage sampleRounds ⟨5, 3, ()⟩ ([4], 0) =
        (Outcome.returned none, ([4, 3], 1),
          [Call.registerClient ⟨5, 3, ()⟩, Call.announceStart ⟨5, 3, ()⟩]) ∧
      processReceivedMessage sampleRounds ⟨0, 3, ()⟩ ([4], 0) =
        (Outcome.returned (some 1), ([4], 0), [Call.registerClient ⟨0, 3, ()⟩]) ∧
      processReceivedMessage sampleRounds ⟨5, 3, ()⟩ ([4, 3], 1) =
        (Outcome.returned none, ([4, 3], 1),
          [Call.verifyMessage ⟨5, 3, ()⟩, Call.broadcastMessage ⟨5, 3, ()⟩]) :=
  ⟨rfl, rfl, rfl, rfl,
    ((processReceivedMessage_gating sampleRounds ⟨5, 3, ()⟩ ([4], 0)).1 rfl).2.1
      ([4, 3], 0) ⟨0⟩ rfl rfl rfl,
    ((processReceivedMessage_gating sampleRounds ⟨0, 3, ()⟩ ([4], 0)).1 rfl).1
      1 ([4], 0) rfl,
    ((processReceivedMessage_gating sampleRounds ⟨5, 3, ()⟩ ([4, 3], 1)).2 ⟨0⟩ rfl).2.1
      ([4, 3], 1) rfl⟩

/-! ## The consumer loop -/

section
variable {σ κ τ ε ω : Type} (k : Collab σ κ τ ε ω) (close : κ → ω → ω)

theorem startSignedChan_cons_error (sc : signedConn σ κ τ) (rest : List (signedConn σ κ τ))
    (w w1 : ω) (err : ε) (calls : List (Call σ κ τ))
    (h : processReceivedMessage k sc w = (Outcome.returned (some err), w1, calls)) :
    startSignedChan k close (sc :: rest) w =
      ⟨⟨sc, some err, calls, [sc.conn]⟩ ::
          (startSignedChan k close rest (close sc.conn w1)).passes,
        (startSignedChan k close rest (close sc.conn w1)).crashed,
        (startSignedChan k close rest (close sc.conn w1)).state⟩ := by
  rw [startSignedChan, h]

theorem startSignedChan_cons_nil (sc : signedConn σ κ τ) (rest : List (signedConn σ κ τ))
    (w w1 : ω) (calls : List (Call σ κ τ))
    (h : processReceivedMessage k sc w = (Outcome.returned none, w1, calls)) :
    startSignedChan k close (sc :: rest) w =
      ⟨⟨sc, none, calls, []⟩ :: (startSignedChan k close rest w1).passes,
        (startSignedChan k close rest w1).crashed,
        (startSignedChan k close rest w1).state⟩ := by
  rw [startSignedChan, h]

theorem startSignedChan_cons_crash (sc : signedConn σ κ τ) (rest : List (signedConn σ κ τ))
    (w w1 : ω) (calls : List (Call σ κ τ))
    (h : processReceivedMessage k sc w = (Outcome.nilDereference, w1, calls)) :
    startSignedChan k close (sc :: rest) w = ⟨[⟨sc, none, calls, []⟩], true, w1⟩ := by
  rw [startSignedChan, h]

/-- The three ways one call of `processReceivedMessage` can end. -/
theorem processReceivedMessage_cases (sc : signedConn σ κ τ) (w : ω) :
    (∃ err w1 calls, processReceivedMessage k sc w =
        (Outcome.returned (some err), w1, calls)) ∨
      (∃ w1 calls, processReceivedMessage k sc w = (Outcome.returned none, w1, calls)) ∨
      (∃ w1 calls, processReceivedMessage k sc w = (Outcome.nilDereference, w1, calls)) := by
  rcases h : processReceivedMessage k sc w with ⟨out, w1, calls⟩
  rcases out with (_ | err) | _
  · exact Or.inr (Or.inl ⟨w1, calls, rfl⟩)
  · exact Or.inl ⟨err, w1, calls, rfl⟩
  · exact Or.inr (Or.inr ⟨w1, calls, rfl⟩)

/-- In every pass the loop closes the connection of the item when the method
returned an error, and no connection otherwise. -/
theorem startSignedChan_closed (items : List (signedConn σ κ τ)) :
    ∀ w, ∀ p ∈ (startSignedChan k close items w).passes,
      (p.err ≠ none → p.closed = [p.item.conn]) ∧ (p.err = none → p.closed = []) := by
  induction items with
  | nil => intro w p hp; simp [startSignedChan] at hp
  | cons sc rest ih =>
    intro w p hp
    rcases processReceivedMessage_cases k sc w with
      ⟨err, w1, calls, h⟩ | ⟨w1, calls, h⟩ | ⟨w1, calls, h⟩
    · rw [startSignedChan_cons_error k close sc rest w w1 err calls h] at hp
      rcases List.mem_cons.mp hp with rfl | hp
      · exact ⟨fun _ => rfl, fun h0 => by simp at h0⟩
      · exact ih _ p hp
    · rw [startSignedChan_cons_nil k close sc rest w w1 calls h] at hp
      rcases List.mem_cons.mp hp with rfl | hp
      · exact ⟨fun h0 => absurd rfl h0, fun _ => rfl⟩
      · exact ih _ p hp
    · rw [startSignedChan_cons_crash k close sc rest w w1 calls h] at hp
      rw [List.mem_singleton.mp hp]
      exact ⟨fun h0 => absurd rfl h0, fun _ => rfl⟩

/-- Unless a nil dereference stops it, the loop takes every item, in channel
order. -/
theorem startSignedChan_items (items : List (signedConn σ κ τ)) :
    ∀ w, (startSignedChan k close items w).crashed = false →
      (startSignedChan k close items w).passes.map Pass.item = items := by
  induction items with
  | nil => intro w _; simp [startSignedChan]
  | cons sc rest ih =>
    intro w hc
    rcases processReceivedMessage_cases k sc w with
      ⟨err, w1, calls, h⟩ | ⟨w1, calls, h⟩ | ⟨w1, calls, h⟩
    · rw [startSignedChan_cons_error k close sc rest w w1 err calls h] at hc ⊢
      simp only [List.map_cons]
      rw [ih _ hc]
    · rw [startSignedChan_cons_nil k close sc rest w w1 calls h] at hc ⊢
      simp only [List.map_cons]
      rw [ih _ hc]
    · rw [startSignedChan_cons_crash k close sc rest w w1 calls h] at hc
      simp at hc

/-- When a registration that succeeds leaves a session, `processReceivedMessage`
returns. -/
theorem processReceivedMessage_returns
    (hreg : ∀ sc w w1, k.registerClient sc w = (none, w1) →
      k.getTrackerData sc.tracker sc.conn w1 ≠ none)
    (sc : signedConn σ κ τ) (w : ω) :
    (processReceivedMessage k sc w).1 ≠ Outcome.nilDereference := by
  unfold processReceivedMessage
  split
  · rcases hr : k.registerClient sc w with ⟨_ | err, w1⟩
    · simp only
      cases hg : k.getTrackerData sc.tracker sc.conn w1 with
      | none => exact absurd hg (hreg sc w w1 hr)
      | some pd =>
        simp only
        split <;> simp
    · simp
  · rcases hv : k.verifyMessage sc w with ⟨_ | err, w1⟩
    · simp
    · simp

theorem startSignedChan_no_crash
    (hreg : ∀ sc w w1, k.registerClient sc w = (none, w1) →
      k.getTrackerData sc.tracker sc.conn w1 ≠ none)
    (items : List (signedConn σ κ τ)) :
    ∀ w, (startSignedChan k close items w).crashed = false := by
  induction items with
  | nil => intro w; simp [startSignedChan]
  | cons sc rest ih =>
    intro w
    rcases processReceivedMessage_cases k sc w with
      ⟨err, w1, calls, h⟩ | ⟨w1, calls, h⟩ | ⟨w1, calls, h⟩
    · rw [startSignedChan_cons_error k close sc rest w w1 err calls h]
      exact ih _
    · rw [startSignedChan_cons_nil k close sc rest w w1 calls h]
      exact ih _
    · have := processReceivedMessage_returns k hreg sc w
      rw [h] at this
      exact absurd rfl this

end

/-- C13. On the items the channel delivers, the loop of `startSignedChan` handles
the first item and goes on with the rest whatever `processReceivedMessage`
returned: after an error it closes that item's connection and goes on from the
state so reached, after nil it goes on at once. In every pass the connections
closed are that item's connection alone when the method returned an error, and
none when it returned nil. The loop stops on no returned error: unless a nil
dereference ends it, which does not happen when a registration that succeeds
leaves a session, its passes take all the items in channel order. -/
theorem startSignedChan_serves_all {σ κ τ ε ω : Type} (k : Collab σ κ τ ε ω)
    (close : κ → ω → ω) (items : List (signedConn σ κ τ)) (w : ω) :
    (∀ sc rest w1 calls err, items = sc :: rest →
      processReceivedMessage k sc w = (Outcome.returned (some err), w1, calls) →
      (startSignedChan k close items w).passes =
        ⟨sc, some err, calls, [sc.conn]⟩ ::
          (startSignedChan k close rest (close sc.conn w1)).passes) ∧
    (∀ sc rest w1 calls, items = sc :: rest →
      processReceivedMessage k sc w = (Outcome.returned none, w1, calls) →
      (startSignedChan k close items w).passes =
        ⟨sc, none, calls, []⟩ :: (startSignedChan k close rest w1).passes) ∧
    (∀ p ∈ (startSignedChan k close items w).passes,
      (p.err ≠ none → p.closed = [p.item.conn]) ∧ (p.err = none → p.closed = [])) ∧
    ((startSignedChan k close items w).crashed = false →
      (startSignedChan k close items w).passes.map Pass.item = items) ∧
    ((∀ sc w w1, k.registerClient sc w = (none, w1) →
        k.getTrackerData sc.tracker sc.conn w1 ≠ none) →
      (startSignedChan k close items w).crashed = false) := by
  refine ⟨?_, ?_, startSignedChan_closed k close items w,
    startSignedChan_items k close items w,
    fun hreg => startSignedChan_no_crash k close hreg items w⟩
  · intro sc rest w1 calls err hi h
    rw [hi, startSignedChan_cons_error k close sc rest w w1 err calls h]
  · intro sc rest w1 calls hi h
    rw [hi, startSignedChan_cons_nil k close sc rest w w1 calls h]

theorem sampleCollab_registers (sc : signedConn Nat Nat Unit) (w w1 : List Nat)
    (h : sampleCollab.registerClient sc w = (none, w1)) :
    sampleCollab.getTrackerData sc.tracker sc.conn w1 ≠ none := by
  simp only [sampleCollab] at h ⊢
  by_cases h0 : sc.message = 0
  · rw [if_pos h0] at h; cases h
  · rw [if_neg h0] at h
    cases h
    simp

/-- C13, at three items: a registration of connection 3 that fails (message 0), a
registration of connection 4 that succeeds, and a message of connection 4 that
fails verification (message 1). All three are taken in order; connection 3 is
closed in the first pass, no connection in the second, connection 4 in the
third. -/
theorem startSignedChan_serves_all_witness :
    (startSignedChan sampleCollab sampleClose [⟨0, 3, ()⟩, ⟨5, 4, ()⟩, ⟨1, 4, ()⟩] []).crashed =
        false ∧
      (startSignedChan sampleCollab sampleClose
          [⟨0, 3, ()⟩, ⟨5, 4, ()⟩, ⟨1, 4, ()⟩] []).passes.map Pass.item =
        [⟨0, 3, ()⟩, ⟨5, 4, ()⟩, ⟨1, 4, ()⟩] ∧
      (startSignedChan sampleCollab sampleClose
          [⟨0, 3, ()⟩, ⟨5, 4, ()⟩, ⟨1, 4, ()⟩] []).passes.map Pass.closed = [[3], [], [4]] ∧
      (startSignedChan sampleCollab sampleClose
          [⟨0, 3, ()⟩, ⟨5, 4, ()⟩, ⟨1, 4, ()⟩] []).passes.map Pass.err =
        [some 1, none, some 2] :=
  ⟨(startSignedChan_serves_all sampleCollab sampleClose
      [⟨0, 3, ()⟩, ⟨5, 4, ()⟩, ⟨1, 4, ()⟩] []).2.2.2.2 sampleCollab_registers,
    (startSignedChan_serves_all sampleCollab sampleClose
      [⟨0, 3, ()⟩, ⟨5, 4, ()⟩, ⟨1, 4, ()⟩] []).2.2.2.1 (by decide),
    by decide, by decide⟩

/-! ## The pool-ready trigger -/

section
variable {σ κ τ ε ω : Type} (k : Collab σ κ τ ε ω) (close : κ → ω → ω) (N : Nat)
  (size : ω → Nat)

/-- One item under a counting tracker: the method returns; the pool grows by one
exactly when the pass is a registration that succeeded; `announceStart` is called
once when that registration brings the pool to `N` members and not at all
otherwise. -/
theorem processReceivedMessage_counting (hT : CountingTracker k close N size)
    (sc : signedConn σ κ τ) (w : ω) :
    ∃ e w1 calls, processReceivedMessage k sc w = (Outcome.returned e, w1, calls) ∧
      ∀ cl, size w1 = size w + (if Pass.registered ⟨sc, e, calls, cl⟩ = true then 1 else 0) ∧
        Pass.announcements ⟨sc, e, calls, cl⟩ =
          (if Pass.registered ⟨sc, e, calls, cl⟩ = true ∧ size w + 1 = N then 1 else 0) := by
  unfold processReceivedMessage
  split
  · rcases hr : k.registerClient sc w with ⟨_ | err, w1⟩
    · obtain ⟨hsz, hget⟩ := hT.admitted sc w w1 hr
      cases hg : k.getTrackerData sc.tracker sc.conn w1 with
      | none => exact absurd hg hget
      | some pd =>
        have hm := hT.measured sc.tracker sc.conn w1 pd hg
        have ht := hT.target sc.tracker w1
        dsimp only
        rw [hg]
        dsimp only
        by_cases heq : k.getPoolSize sc.tracker pd.pool w1 = k.poolSize sc.tracker w1
        · rw [if_pos heq]
          have hN : size w + 1 = N := by
            rw [hm, ht] at heq
            have := Int.ofNat.inj heq
            omega
          refine ⟨none, _, _, rfl, fun cl => ?_⟩
          simp [Pass.registered, Pass.announcements, Call.isAnnounceStart, hN,
            hT.announce, hsz]
        · rw [if_neg heq]
          have hN : size w + 1 ≠ N := by
            intro h
            apply heq
            rw [hm, ht, hsz, h]
          refine ⟨none, _, _, rfl, fun cl => ?_⟩
          simp [Pass.registered, Pass.announcements, Call.isAnnounceStart, hN, hsz]
    · have hsz := hT.refused sc w err w1 hr
      refine ⟨some err, _, _, rfl, fun cl => ?_⟩
      simp [Pass.registered, Pass.announcements, Call.isAnnounceStart, hsz]
  · rcases hv : k.verifyMessage sc w with ⟨_ | err, w1⟩
    · have hsz : size w1 = size w := by
        have := hT.verify sc w; rw [hv] at this; exact this
      have hb := hT.broadcast sc w1
      refine ⟨(k.broadcastMessage sc w1).1, (k.broadcastMessage sc w1).2, _, rfl,
        fun cl => ?_⟩
      simp [Pass.registered, Pass.announcements, Call.isAnnounceStart, hb, hsz]
    · have hsz : size w1 = size w := by
        have := hT.verify sc w; rw [hv] at this; exact this
      refine ⟨some err, _, _, rfl, fun cl => ?_⟩
      simp [Pass.registered, Pass.announcements, Call.isAnnounceStart, hsz]

/-- The first pass of the loop under a counting tracker, and the state from which
the loop goes on. -/
theorem startSignedChan_counting_step (hT : CountingTracker k close N size)
    (sc : signedConn σ κ τ) (rest : List (signedConn σ κ τ)) (w : ω) :
    ∃ p w2, size w2 = size w + (if p.registered = true then 1 else 0) ∧
      p.announcements = (if p.registered = true ∧ size w + 1 = N then 1 else 0) ∧
      p.item = sc ∧
      (startSignedChan k close (sc :: rest) w).passes =
        p :: (startSignedChan k close rest w2).passes ∧
      (startSignedChan k close (sc :: rest) w).crashed =
        (startSignedChan k close rest w2).crashed ∧
      (startSignedChan k close (sc :: rest) w).state =
        (startSignedChan k close rest w2).state := by
  obtain ⟨e, w1, calls, h, hp⟩ := processReceivedMessage_counting k close N size hT sc w
  cases e with
  | none =>
    refine ⟨⟨sc, none, calls, []⟩, w1, (hp []).1, (hp []).2, rfl, ?_, ?_, ?_⟩ <;>
      rw [startSignedChan_cons_nil k close sc rest w w1 calls h]
  | some err =>
    refine ⟨⟨sc, some err, calls, [sc.conn]⟩, close sc.conn w1, ?_, (hp [sc.conn]).2, rfl,
      ?_, ?_, ?_⟩
    · rw [hT.closing]; exact (hp [sc.conn]).1
    · rw [startSignedChan_cons_error k close sc rest w w1 err calls h]
    · rw [startSignedChan_cons_error k close sc rest w w1 err calls h]
    · rw [startSignedChan_cons_error k close sc rest w w1 err calls h]

/-- The loop under a counting tracker, from any number of members: the pass that
calls `announceStart` is the registration that brings the pool to `N` members. -/
theorem startSignedChan_counting (hT : CountingTracker k close N size)
    (items : List (signedConn σ κ τ)) :
    ∀ w, (startSignedChan k close items w).crashed = false ∧
      (startSignedChan k close items w).passes.map Pass.item = items ∧
      (∀ pre p post, (startSignedChan k close items w).passes = pre ++ p :: post →
        p.announcements =
          (if p.registered = true ∧ size w + pre.countP Pass.registered + 1 = N
            then 1 else 0)) ∧
      announcements (startSignedChan k close items w).passes =
        (if size w < N ∧
            N ≤ size w + (startSignedChan k close items w).passes.countP Pass.registered
          then 1 else 0) := by
  induction items with
  | nil =>
    intro w
    refine ⟨rfl, rfl, fun pre p post h => ?_, ?_⟩
    · simp [startSignedChan] at h
    · simp only [startSignedChan, announcements, List.countP_nil, Nat.add_zero]
      rw [if_neg (by omega)]
  | cons sc rest ih =>
    intro w
    obtain ⟨p, w2, hsz, hann, hitem, hpass, hcr, _⟩ :=
      startSignedChan_counting_step k close N size hT sc rest w
    obtain ⟨ih1, ih2, ih3, ih4⟩ := ih w2
    rw [hpass, hcr]
    refine ⟨ih1, by simp [hitem, ih2], fun pre q post h => ?_, ?_⟩
    · cases pre with
      | nil =>
        simp only [List.nil_append, List.cons.injEq] at h
        obtain ⟨rfl, _⟩ := h
        simpa using hann
      | cons p0 pre =>
        simp only [List.cons_append, List.cons.injEq] at h
        obtain ⟨rfl, h⟩ := h
        rw [ih3 pre q post h, hsz, List.countP_cons]
        have e : size w + (if p.registered = true then 1 else 0) +
            List.countP Pass.registered pre + 1 =
            size w + (List.countP Pass.registered pre +
              if p.registered = true then 1 else 0) + 1 := by omega
        rw [e]
    · simp only [announcements, List.countP_cons]
      rw [hann, ih4, hsz]
      by_cases hp : p.registered = true
      · simp only [hp, if_true, true_and]
        split_ifs <;> omega
      · simp only [hp, if_false, false_and, Bool.false_eq_true]
        split_ifs <;> omega

/-- Under a counting tracker the pool has as many members as registrations have
succeeded. -/
theorem startSignedChan_counting_size (hT : CountingTracker k close N size)
    (items : List (signedConn σ κ τ)) :
    ∀ w, size (startSignedChan k close items w).state =
      size w + (startSignedChan k close items w).passes.countP Pass.registered := by
  induction items with
  | nil => intro w; simp [startSignedChan]
  | cons sc rest ih =>
    intro w
    obtain ⟨p, w2, hsz, _, _, hpass, _, hst⟩ :=
      startSignedChan_counting_step k close N size hT sc rest w
    rw [hpass, hst, ih w2, hsz, List.countP_cons]
    omega

/-- A run that is not stopped goes on, item after item, from the state it
reached. -/
theorem startSignedChan_append (pre : List (signedConn σ κ τ)) :
    ∀ (rest : List (signedConn σ κ τ)) (w : ω),
      (startSignedChan k close pre w).crashed = false →
      (startSignedChan k close (pre ++ rest) w).passes =
        (startSignedChan k close pre w).passes ++
          (startSignedChan k close rest (startSignedChan k close pre w).state).passes := by
  induction pre with
  | nil => intro rest w _; simp [startSignedChan]
  | cons sc pre ih =>
    intro rest w hc
    rcases processReceivedMessage_cases k sc w with
      ⟨err, w1, calls, h⟩ | ⟨w1, calls, h⟩ | ⟨w1, calls, h⟩
    · rw [startSignedChan_cons_error k close sc pre w w1 err calls h] at hc ⊢
      rw [List.cons_append, startSignedChan_cons_error k close sc (pre ++ rest) w w1 err calls h]
      simp only [List.cons_append]
      rw [ih rest _ hc]
    · rw [startSignedChan_cons_nil k close sc pre w w1 calls h] at hc ⊢
      rw [List.cons_append, startSignedChan_cons_nil k close sc (pre ++ rest) w w1 calls h]
      simp only [List.cons_append]
      rw [ih rest _ hc]
    · rw [startSignedChan_cons_crash k close sc pre w w1 calls h] at hc
      simp at hc

/-- A registration that succeeds under a counting tracker: `announceStart` is
applied to the state exactly when the pool reaches `N` members. -/
theorem processReceivedMessage_admitted_counting (hT : CountingTracker k close N size)
    (sc : signedConn σ κ τ) (w w1 : ω)
    (hs : k.getTrackerData sc.tracker sc.conn w = none)
    (hr : k.registerClient sc w = (none, w1)) :
    processReceivedMessage k sc w =
      (if size w + 1 = N then
        (Outcome.returned none, k.announceStart sc w1,
          [Call.registerClient sc, Call.announceStart sc])
      else
        (Outcome.returned none, w1, [Call.registerClient sc])) := by
  obtain ⟨hsz, hget⟩ := hT.admitted sc w w1 hr
  obtain ⟨_, h2, h3⟩ := processReceivedMessage_admitted k sc w w1 hs hr
  cases hg : k.getTrackerData sc.tracker sc.conn w1 with
  | none => exact absurd hg hget
  | some pd =>
    have hm := hT.measured sc.tracker sc.conn w1 pd hg
    have ht := hT.target sc.tracker w1
    by_cases hN : size w + 1 = N
    · rw [if_pos hN]
      exact h2 pd hg (by rw [hm, ht, hsz, hN])
    · rw [if_neg hN]
      refine h3 pd hg ?_
      intro heq
      rw [hm, ht] at heq
      have := Int.ofNat.inj heq
      omega

/-- The pass of one item in a run under a counting tracker that starts from the
empty pool: it is the call of `processReceivedMessage` on the state the items
before it left, where the pool has as many members as registrations succeeded
before. -/
theorem startSignedChan_counting_at (hT : CountingTracker k close N size)
    (pre : List (signedConn σ κ τ)) (sc : signedConn σ κ τ)
    (post : List (signedConn σ κ τ)) (w : ω) (h0 : size w = 0) :
    size (startSignedChan k close pre w).state =
        (startSignedChan k close pre w).passes.countP Pass.registered ∧
      ∃ e w1 calls cl more,
        processReceivedMessage k sc (startSignedChan k close pre w).state =
          (Outcome.returned e, w1, calls) ∧
        (startSignedChan k close (pre ++ sc :: post) w).passes =
          (startSignedChan k close pre w).passes ++ ⟨sc, e, calls, cl⟩ :: more := by
  have hsz := startSignedChan_counting_size k close N size hT pre w
  rw [h0, Nat.zero_add] at hsz
  refine ⟨hsz, ?_⟩
  have hcr := (startSignedChan_counting k close N size hT pre w).1
  obtain ⟨e, w1, calls, h, _⟩ := processReceivedMessage_counting k close N size hT sc
    (startSignedChan k close pre w).state
  rw [startSignedChan_append k close pre (sc :: post) w hcr]
  cases e with
  | none =>
    exact ⟨none, w1, calls, [], _, h, by
      rw [startSignedChan_cons_nil k close sc post _ w1 calls h]⟩
  | some err =>
    exact ⟨some err, w1, calls, [sc.conn], _, h, by
      rw [startSignedChan_cons_error k close sc post _ w1 err calls h]⟩

end

/-- C11. Take a tracker with target size `N ≥ 1` whose pool, empty at the start,
gains one member with every registration that succeeds and changes in no other
way. On any sequence of items the consumer loop hands to
`processReceivedMessage`, every item is processed, and `announceStart` is called
once in the pass that is the `N`-th registration to succeed and in no other pass:
not in a registration that fails, not in an earlier or later registration, not for
a message of a registered connection. Over the whole sequence it is called exactly
once when at least `N` registrations succeed, and never otherwise. The calls
counted are the calls made: the pass of every item is the result of
`processReceivedMessage` on the state the items before it left, and that result
has `announceStart` applied to the state registration left exactly when the
registration succeeds and is the `N`-th to do so; in every other case the state is
the one `registerClient`, or `verifyMessage` and `broadcastMessage`, left. -/
theorem announceStart_at_nth_registration {σ κ τ ε ω : Type} (k : Collab σ κ τ ε ω)
    (close : κ → ω → ω) (N : Nat) (size : ω → Nat) (items : List (signedConn σ κ τ)) (w : ω)
    (hT : CountingTracker k close N size) (hN : 1 ≤ N) (h0 : size w = 0) :
    (startSignedChan k close items w).crashed = false ∧
      (startSignedChan k close items w).passes.map Pass.item = items ∧
      (∀ pre p post, (startSignedChan k close items w).passes = pre ++ p :: post →
        p.announcements =
          (if p.registered = true ∧ pre.countP Pass.registered + 1 = N then 1 else 0)) ∧
      announcements (startSignedChan k close items w).passes =
        (if N ≤ (startSignedChan k close items w).passes.countP Pass.registered
          then 1 else 0) ∧
      (∀ pre sc post, items = pre ++ sc :: post →
        (∃ e w1 calls cl more,
          processReceivedMessage k sc (startSignedChan k close pre w).state =
            (Outcome.returned e, w1, calls) ∧
          (startSignedChan k close items w).passes =
            (startSignedChan k close pre w).passes ++ ⟨sc, e, calls, cl⟩ :: more) ∧
        (∀ w1,
          k.getTrackerData sc.tracker sc.conn (startSignedChan k close pre w).state = none →
          k.registerClient sc (startSignedChan k close pre w).state = (none, w1) →
          processReceivedMessage k sc (startSignedChan k close pre w).state =
            (if (startSignedChan k close pre w).passes.countP Pass.registered + 1 = N then
              (Outcome.returned none, k.announceStart sc w1,
                [Call.registerClient sc, Call.announceStart sc])
            else
              (Outcome.returned none, w1, [Call.registerClient sc]))) ∧
        (∀ e w1,
          k.getTrackerData sc.tracker sc.conn (startSignedChan k close pre w).state = none →
          k.registerClient sc (startSignedChan k close pre w).state = (some e, w1) →
          processReceivedMessage k sc (startSignedChan k close pre w).state =
            (Outcome.returned (some e), w1, [Call.registerClient sc])) ∧
        (∀ pd e w1,
          k.getTrackerData sc.tracker sc.conn (startSignedChan k close pre w).state =
            some pd →
          k.verifyMessage sc (startSignedChan k close pre w).state = (some e, w1) →
          processReceivedMessage k sc (startSignedChan k close pre w).state =
            (Outcome.returned (some e), w1, [Call.verifyMessage sc])) ∧
        (∀ pd w1,
          k.getTrackerData sc.tracker sc.conn (startSignedChan k close pre w).state =
            some pd →
          k.verifyMessage sc (startSignedChan k close pre w).state = (none, w1) →
          processReceivedMessage k sc (startSignedChan k close pre w).state =
            (Outcome.returned (k.broadcastMessage sc w1).1, (k.broadcastMessage sc w1).2,
              [Call.verifyMessage sc, Call.broadcastMessage sc]))) := by
  obtain ⟨h1, h2, h3, h4⟩ := startSignedChan_counting k close N size hT items w
  refine ⟨h1, h2, fun pre p post h => ?_, ?_, fun pre sc post hi => ?_⟩
  · rw [h3 pre p post h, h0, Nat.zero_add]
  · rw [h4, h0, Nat.zero_add]
    by_cases hle : N ≤ (startSignedChan k close items w).passes.countP Pass.registered
    · rw [if_pos ⟨by omega, hle⟩, if_pos hle]
    · rw [if_neg (fun h => hle h.2), if_neg hle]
  · obtain ⟨hsz, hat⟩ := startSignedChan_counting_at k close N size hT pre sc post w h0
    refine ⟨by rw [hi]; exact hat, fun w1 hs hr => ?_,
      fun e w1 hs hr => processReceivedMessage_refused k sc _ e w1 hs hr,
      fun pd e w1 hs hv => processReceivedMessage_unverified k sc _ pd e w1 hs hv,
      fun pd w1 hs hv => processReceivedMessage_verified k sc _ pd w1 hs hv⟩
    rw [processReceivedMessage_admitted_counting k close N size hT sc _ w1 hs hr, hsz]

theorem sampleRounds_counting :
    CountingTracker sampleRounds roundsClose 2 (fun w => w.1.length) where
  target := fun _ _ => rfl
  measured := fun _ _ _ _ _ => rfl
  admitted := by
    intro sc w w1 h
    simp only [sampleRounds] at h ⊢
    by_cases h0 : sc.message = 0
    · rw [if_pos h0] at h; cases h
    · rw [if_neg h0] at h
      cases h
      simp
  refused := by
    intro sc w e w1 h
    simp only [sampleRounds] at h
    by_cases h0 : sc.message = 0
    · rw [if_pos h0] at h; cases h; rfl
    · rw [if_neg h0] at h; cases h
  announce := fun _ _ => rfl
  verify := by
    intro sc w
    simp only [sampleRounds]
    split <;> rfl
  broadcast := fun _ _ => rfl
  closing := fun _ _ => rfl

/-- C11, at target size 2 and six items: a registration of connection 3 that fails,
registrations of connections 3 and 4 that succeed with a message of connection 3
between them, a third registration, and a message of connection 4. The only call
of `announceStart` is in the fourth pass, the second registration to succeed; the
state at the end holds one announcement; and the fourth item, on the state the
first three left, gives the state to which `announceStart` was applied. -/
theorem announceStart_at_nth_registration_witness :
    CountingTracker sampleRounds roundsClose 2 (fun w => w.1.length) ∧ 1 ≤ 2 ∧
      (([], 0) : List Nat × Nat).1.length = 0 ∧
      (startSignedChan sampleRounds roundsClose
          [⟨0, 3, ()⟩, ⟨5, 3, ()⟩, ⟨7, 3, ()⟩, ⟨5, 4, ()⟩, ⟨5, 6, ()⟩, ⟨7, 4, ()⟩]
          ([], 0)).passes.map Pass.announcements = [0, 0, 0, 1, 0, 0] ∧
      (startSignedChan sampleRounds roundsClose
          [⟨0, 3, ()⟩, ⟨5, 3, ()⟩, ⟨7, 3, ()⟩, ⟨5, 4, ()⟩, ⟨5, 6, ()⟩, ⟨7, 4, ()⟩]
          ([], 0)).passes.map Pass.registered = [false, true, false, true, true, false] ∧
      (startSignedChan sampleRounds roundsClose
          [⟨0, 3, ()⟩, ⟨5, 3, ()⟩, ⟨7, 3, ()⟩, ⟨5, 4, ()⟩, ⟨5, 6, ()⟩, ⟨7, 4, ()⟩]
          ([], 0)).state = ([3, 4, 6], 1) ∧
      announcements (startSignedChan sampleRounds roundsClose
          [⟨0, 3, ()⟩, ⟨5, 3, ()⟩, ⟨7, 3, ()⟩, ⟨5, 4, ()⟩, ⟨5, 6, ()⟩, ⟨7, 4, ()⟩]
          ([], 0)).passes =
        (if 2 ≤ (startSignedChan sampleRounds roundsClose
            [⟨0, 3, ()⟩, ⟨5, 3, ()⟩, ⟨7, 3, ()⟩, ⟨5, 4, ()⟩, ⟨5, 6, ()⟩, ⟨7, 4, ()⟩]
            ([], 0)).passes.countP Pass.registered then 1 else 0) ∧
      announcements (startSignedChan sampleRounds roundsClose
          [⟨0, 3, ()⟩, ⟨5, 3, ()⟩, ⟨7, 3, ()⟩, ⟨5, 4, ()⟩, ⟨5, 6, ()⟩, ⟨7, 4, ()⟩]
          ([], 0)).passes = 1 ∧
      processReceivedMessage sampleRounds ⟨5, 4, ()⟩
          (startSignedChan sampleRounds roundsClose [⟨0, 3, ()⟩, ⟨5, 3, ()⟩, ⟨7, 3, ()⟩]
            ([], 0)).state =
        (Outcome.returned none, ([3, 4], 1),
          [Call.registerClient ⟨5, 4, ()⟩, Call.announceStart ⟨5, 4, ()⟩]) :=
  ⟨sampleRounds_counting, by decide, rfl, by decide, by decide, by decide,
    (announceStart_at_nth_registration sampleRounds roundsClose 2 (fun w => w.1.length)
      [⟨0, 3, ()⟩, ⟨5, 3, ()⟩, ⟨7, 3, ()⟩, ⟨5, 4, ()⟩, ⟨5, 6, ()⟩, ⟨7, 4, ()⟩] ([], 0)
      sampleRounds_counting (by decide) rfl).2.2.2.1,
    by decide,
    ((announceStart_at_nth_registration sampleRounds roundsClose 2 (fun w => w.1.length)
      [⟨0, 3, ()⟩, ⟨5, 3, ()⟩, ⟨7, 3, ()⟩, ⟨5, 4, ()⟩, ⟨5, 6, ()⟩, ⟨7, 4, ()⟩] ([], 0)
      sampleRounds_counting (by decide) rfl).2.2.2.2
      [⟨0, 3, ()⟩, ⟨5, 3, ()⟩, ⟨7, 3, ()⟩] ⟨5, 4, ()⟩ [⟨5, 6, ()⟩, ⟨7, 4, ()⟩] rfl).2.1
      ([3, 4], 0) rfl rfl⟩

/-! ## The event processor: established members -/

/-- C12. For an item whose connection has a session, `processReceivedMessage`
calls `verifyMessage` first. If verification fails it returns that error and makes
no other call, so `broadcastMessage` is not called. If verification succeeds it
calls `broadcastMessage` once, on the state verification left, and returns what
`broadcastMessage` returns. -/
theorem processReceivedMessage_verify_then_broadcast {σ κ τ ε ω : Type}
    (k : Collab σ κ τ ε ω) (sc : signedConn σ κ τ) (w : ω) (pd : playerData)
    (hs : k.getTrackerData sc.tracker sc.conn w = some pd) :
    (∀ e w1, k.verifyMessage sc w = (some e, w1) →
      processReceivedMessage k sc w =
        (Outcome.returned (some e), w1, [Call.verifyMessage sc])) ∧
    (∀ w1, k.verifyMessage sc w = (none, w1) →
      processReceivedMessage k sc w =
        (Outcome.returned (k.broadcastMessage sc w1).1, (k.broadcastMessage sc w1).2,
          [Call.verifyMessage sc, Call.broadcastMessage sc])) := by
  constructor
  · intro e w1 hv
    unfold processReceivedMessage
    rw [hs]
    simp only [Option.isNone_some, Bool.false_eq_true, if_false, hv]
  · intro w1 hv
    unfold processReceivedMessage
    rw [hs]
    simp only [Option.isNone_some, Bool.false_eq_true, if_false, hv]

/-- C12, at connection 3 with a session: message 1 fails verification, message 5
is verified and broadcast. -/
theorem processReceivedMessage_verify_then_broadcast_witness :
    sampleCollab.getTrackerData () 3 [3] = some ⟨0⟩ ∧
      sampleCollab.verifyMessage ⟨1, 3, ()⟩ [3] = (some 2, [3]) ∧
      sampleCollab.verifyMessage ⟨5, 3, ()⟩ [3] = (none, [3]) ∧
      processReceivedMessage sampleCollab ⟨1, 3, ()⟩ [3] =
        (Outcome.returned (some 2), [3], [Call.verifyMessage ⟨1, 3, ()⟩]) ∧
      processReceivedMessage sampleCollab ⟨5, 3, ()⟩ [3] =
        (Outcome.returned none, [3],
          [Call.verifyMessage ⟨5, 3, ()⟩, Call.broadcastMessage ⟨5, 3, ()⟩]) :=
  ⟨rfl, rfl, rfl,
    (processReceivedMessage_verify_then_broadcast sampleCollab ⟨1, 3, ()⟩ [3] ⟨0⟩ rfl).1
      2 [3] rfl,
    (processReceivedMessage_verify_then_broadcast sampleCollab ⟨5, 3, ()⟩ [3] ⟨0⟩ rfl).2
      [3] rfl⟩

/-! ## The writer -/

theorem writeMessage_ok {σ κ ε ω : Type} (marshal : List σ → Except ε (List Byte))
    (write : κ → List Byte → ω → (Nat × Option ε) × ω) (conn : κ) (msgs : List σ) (w : ω)
    (reply : List Byte) (hm : marshal msgs = Except.ok reply) :
    writeMessage marshal write conn msgs w =
      ((write conn (reply ++ breakBytes) w).1.2, (write conn (reply ++ breakBytes) w).2,
        [reply ++ breakBytes]) := by
  unfold writeMessage
  rw [hm]
  dsimp only
  rcases hw : write conn (reply ++ breakBytes) w with ⟨⟨n, _ | err⟩, w1⟩ <;> rfl

/-- C14. When serialization of the units succeeds with `reply`, `writeMessage`
makes exactly one `Write` call on the connection, with `reply` followed by the
three bytes `E2 8F 8E`, and returns the error of that call. When serialization
fails it makes no `Write` call, leaves the state as it was and returns the
serialization error. -/
theorem writeMessage_single_write {σ κ ε ω : Type} (marshal : List σ → Except ε (List Byte))
    (write : κ → List Byte → ω → (Nat × Option ε) × ω) (conn : κ) (msgs : List σ) (w : ω) :
    (∀ reply, marshal msgs = Except.ok reply →
      writeMessage marshal write conn msgs w =
        ((write conn (reply ++ [226, 143, 142]) w).1.2, (write conn (reply ++ [226, 143, 142]) w).2,
          [reply ++ [226, 143, 142]])) ∧
    (∀ e, marshal msgs = Except.error e →
      writeMessage marshal write conn msgs w = (some e, w, [])) := by
  constructor
  · intro reply hm
    exact writeMessage_ok marshal write conn msgs w reply hm
  · intro e hm
    unfold writeMessage
    rw [hm]

/-- C14, at the units `02 03` written to connection 4, at the same units written
to the broken connection 0, and at units that do not serialize. -/
theorem writeMessage_single_write_witness :
    sampleMarshal [2, 3] = Except.ok [2, 3] ∧ sampleMarshal [0, 1] = Except.error 9 ∧
      writeMessage sampleMarshal sampleWrite 4 [2, 3] [] =
        (none, [(4, [2, 3, 226, 143, 142])], [[2, 3, 226, 143, 142]]) ∧
      writeMessage sampleMarshal sampleWrite 0 [2, 3] [] =
        (some 3, [], [[2, 3, 226, 143, 142]]) ∧
      writeMessage sampleMarshal sampleWrite 4 [0, 1] [] = (some 9, [], []) :=
  ⟨rfl, rfl,
    (writeMessage_single_write sampleMarshal sampleWrite 4 [2, 3] []).1 [2, 3] rfl,
    (writeMessage_single_write sampleMarshal sampleWrite 0 [2, 3] []).1 [2, 3] rfl,
    (writeMessage_single_write sampleMarshal sampleWrite 4 [0, 1] []).2 9 rfl⟩

/-- C15. The error `writeMessage` returns after serialization is the error of the
`Write` call, made once on the full frame; the byte count of that call is not
looked at. `Write` is bound by the contract of `io.Writer` to return a non-nil
error whenever it reports fewer bytes than the length of its argument. So for every
outcome of the `Write` call that reports fewer bytes than the full frame
(serialized envelope plus delimiter), `writeMessage` returns a non-nil error: a
write that only partly completes is not reported as success. -/
theorem writeMessage_returns_write_error {σ κ ε ω : Type}
    (marshal : List σ → Except ε (List Byte))
    (write : κ → List Byte → ω → (Nat × Option ε) × ω) (conn : κ) (msgs : List σ) (w : ω)
    (reply : List Byte) (hm : marshal msgs = Except.ok reply) :
    writeMessage marshal write conn msgs w =
        ((write conn (reply ++ breakBytes) w).1.2, (write conn (reply ++ breakBytes) w).2,
          [reply ++ breakBytes]) ∧
      (writeMessage marshal write conn msgs w).1 = (write conn (reply ++ breakBytes) w).1.2 ∧
      (((write conn (reply ++ breakBytes) w).1.1 < (reply ++ breakBytes).length →
          (write conn (reply ++ breakBytes) w).1.2 ≠ none) →
        (write conn (reply ++ breakBytes) w).1.1 < (reply ++ breakBytes).length →
        (writeMessage marshal write conn msgs w).1 ≠ none) := by
  have h := writeMessage_ok marshal write conn msgs w reply hm
  refine ⟨h, by rw [h], fun hc hn => by rw [h]; exact hc hn⟩

/-- C15, at the broken connection 0, whose `Write` stops after 0 of the 5 bytes
with error 3. -/
theorem writeMessage_returns_write_error_witness :
    sampleMarshal [2, 3] = Except.ok [2, 3] ∧
      (sampleWrite 0 ([2, 3] ++ breakBytes) []).1 = (0, some 3) ∧
      (sampleWrite 0 ([2, 3] ++ breakBytes) []).1.1 < ([2, 3] ++ breakBytes).length ∧
      (writeMessage sampleMarshal sampleWrite 0 [2, 3] []).1 = some 3 ∧
      (writeMessage sampleMarshal sampleWrite 0 [2, 3] []).1 ≠ none :=
  ⟨rfl, rfl, by decide,
    (writeMessage_returns_write_error sampleMarshal sampleWrite 0 [2, 3] [] [2, 3] rfl).2.1,
    (writeMessage_returns_write_error sampleMarshal sampleWrite 0 [2, 3] [] [2, 3] rfl).2.2
      (fun _ => by decide) (by decide)⟩

/-! ## The frame reader: what reaches the decoder, termination, round trip -/

section
variable {σ κ τ ε : Type} (unmarshal : List Byte → Except ε (List σ)) (conn : κ) (t : τ)
  (final : Option ε) (pending : Nat)

/-- The outer loop hands no empty buffer to the decoder. -/
theorem processLoop_handed_nonempty (n : Nat) :
    ∀ (s : List Byte) (hd : List (List Byte)) (c : List (signedConn σ κ τ)) (r : Run σ κ τ ε),
      (∀ b ∈ hd, b ≠ []) → processLoop unmarshal conn t final pending n s hd c = some r →
      ∀ b ∈ r.handed, b ≠ [] := by
  induction n with
  | zero => intro s hd c r _ h; simp [processLoop] at h
  | succ n ih =>
    intro s hd c r hhd hr
    have hmore : ∀ b ∈ hd ++ [(scanLoop [] s).b], (scanLoop [] s).b ≠ [] → b ≠ [] := by
      intro b hb hne
      rcases List.mem_append.mp hb with h1 | h1
      · exact hhd b h1
      · rw [List.mem_singleton.mp h1]; exact hne
    by_cases h : (scanLoop [] s).exit = ScanExit.tooLong
    · rw [processLoop_tooLong _ _ _ _ _ n s hd c h] at hr
      cases hr; exact hhd
    · cases he : scannerErr final pending (scanLoop [] s) with
      | some e =>
        rw [processLoop_scanError _ _ _ _ _ n s hd c e h he] at hr
        cases hr; exact hhd
      | none =>
        by_cases hb : (scanLoop [] s).b = []
        · rw [processLoop_empty _ _ _ _ _ n s hd c h he hb] at hr
          cases hr; exact hhd
        · cases hu : unmarshal (scanLoop [] s).b with
          | error e =>
            rw [processLoop_send_error _ _ _ _ _ n s hd c e h he hb hu] at hr
            cases hr; exact fun b hbm => hmore b hbm hb
          | ok us =>
            rw [processLoop_send_ok _ _ _ _ _ n s hd c us h he hb hu] at hr
            exact ih _ _ _ r (fun b hbm => hmore b hbm hb) hr

/-- One pass of the outer loop: it leaves the loop, or it goes on with fewer bytes
to read. -/
theorem processLoop_pass (s : List Byte) (hd : List (List Byte))
    (c : List (signedConn σ κ τ)) :
    (∃ r, ∀ n, processLoop unmarshal conn t final pending (n + 1) s hd c = some r) ∨
      ((scanLoop [] s).rest.length < s.length ∧
        ∃ hd2 c2, ∀ n, processLoop unmarshal conn t final pending (n + 1) s hd c =
          processLoop unmarshal conn t final pending n (scanLoop [] s).rest hd2 c2) := by
  by_cases h : (scanLoop [] s).exit = ScanExit.tooLong
  · exact Or.inl ⟨_, fun n => processLoop_tooLong _ _ _ _ _ n s hd c h⟩
  · cases he : scannerErr final pending (scanLoop [] s) with
    | some e =>
      exact Or.inl ⟨_, fun n => processLoop_scanError _ _ _ _ _ n s hd c e h he⟩
    | none =>
      by_cases hb : (scanLoop [] s).b = []
      · exact Or.inl ⟨_, fun n => processLoop_empty _ _ _ _ _ n s hd c h he hb⟩
      · cases hu : unmarshal (scanLoop [] s).b with
        | error e =>
          exact Or.inl ⟨_, fun n => processLoop_send_error _ _ _ _ _ n s hd c e h he hb hu⟩
        | ok us =>
          exact Or.inr ⟨scanLoop_progress s h hb, _, _,
            fun n => processLoop_send_ok _ _ _ _ _ n s hd c us h he hb hu⟩

/-- The run of the outer loop does not depend on the bound once it is over the
length of the stream. -/
theorem processLoop_result (s : List Byte) (hd : List (List Byte))
    (c : List (signedConn σ κ τ)) :
    ∃ r, ∀ n, s.length + 1 ≤ n → processLoop unmarshal conn t final pending n s hd c = some r := by
  have hsome := processLoop_isSome unmarshal conn t final pending (s.length + 1) s hd c (by omega)
  obtain ⟨r, hr⟩ := Option.isSome_iff_exists.mp hsome
  exact ⟨r, fun n hn => by
    rw [processLoop_fuel unmarshal conn t final pending n (s.length + 1) s hd c hn (by omega)]
    exact hr⟩

/-- A frame the reader completes, alone on a stream that ends with no read error
pending: it is handed to the decoder and its items are enqueued. -/
theorem processMessages_single_frame (c : List (signedConn σ κ τ)) (F : List Byte)
    (us : List σ) (hF : Framed F) (hu : unmarshal F = Except.ok us) :
    (final = none ∨ pending = 0) →
    processMessages unmarshal conn c t (F ++ breakBytes) final pending =
      some ⟨[F], c ++ itemsOf conn t us,
        (match final with
          | some e => Exit.scanError e
          | none => Exit.emptyMessage), []⟩ := by
  intro hq
  have hdel : Delivered unmarshal [F] := by
    intro G hG
    rw [List.mem_singleton.mp hG]; exact ⟨hF, us, hu⟩
  have h := processMessages_frames unmarshal conn t final pending [F] [] c hdel
    (quiet_of_le _ _ _ (hq.imp id (fun h0 => by rw [h0]; exact Nat.zero_le _)))
  have e : frames [F] ++ [] = F ++ breakBytes := by simp [frames]
  rw [e, processLoop_nil] at h
  rw [h]
  simp [unitsOf, hu]

end

/-- An envelope of 1 to 65534 bytes, none of whose prefixes longer than 3 bytes
ends in the delimiter, is a frame the reader completes. -/
theorem framed_of_envelope (E : List Byte) (h1 : 1 ≤ E.length) (h2 : E.length ≤ 65534)
    (hno : ∀ k, 3 < k → k ≤ E.length → (E.take k).drop (k - 3) ≠ breakBytes) : Framed E := by
  refine ⟨fun h => by rw [h] at h1; simp at h1, by unfold maxMessageLength; omega,
    fun k hk => ?_⟩
  by_cases hk1 : k ≤ E.length
  · rw [List.take_append_of_le_length hk1]
    cases hb : breakScan (E.take k) with
    | false => rfl
    | true =>
      obtain ⟨hl, hd⟩ := (breakScan_eq_true_iff_length _).mp hb
      have hlen : (E.take k).length = k := by rw [List.length_take]; omega
      rw [hlen] at hl hd
      exact absurd hd (hno k hl hk1)
  · apply breakScan_false_of_getLast
    intro x hx
    have hk2 : k = E.length + 1 ∨ k = E.length + 2 := by omega
    rcases hk2 with rfl | rfl
    · have e : (E ++ breakBytes).take (E.length + 1) = E ++ [226] := by
        rw [List.take_append_eq_append_take]; simp [breakBytes]
      rw [e] at hx
      simp at hx
      subst hx
      decide
    · have e : (E ++ breakBytes).take (E.length + 2) = E ++ [226, 143] := by
        rw [List.take_append_eq_append_take]; simp [breakBytes]
      rw [e] at hx
      simp at hx
      subst hx
      decide

/-- C16. For every input stream `processMessages` stops and every byte sequence it
handed to `sendToSignedChan` is non-empty. The two reasons: whenever the inner loop
is left at a delimiter, from whatever buffer and on whatever bytes, the buffer cut
by the delimiter is not empty; and on an exhausted stream the outer loop, its
buffer empty, stops without handing anything over. -/
theorem processMessages_handed_nonempty {σ κ τ ε : Type}
    (unmarshal : List Byte → Except ε (List σ)) (conn : κ) (t : τ) (final : Option ε)
    (pending : Nat) (c : List (signedConn σ κ τ)) (input b s : List Byte)
    (hd : List (List Byte)) (n : Nat) :
    (∃ r, processMessages unmarshal conn c t input final pending = some r ∧
      ∀ f ∈ r.handed, f ≠ []) ∧
    ((scanLoop b s).exit = ScanExit.delimiter → (scanLoop b s).b ≠ []) ∧
    (∃ r, processLoop unmarshal conn t final pending (n + 1) [] hd c = some r ∧
      r.handed = hd) := by
  refine ⟨?_, fun h => (scanLoop_delimiter s b h).1,
    ⟨_, processLoop_nil _ _ _ _ _ n hd c, rfl⟩⟩
  have hsome := processLoop_isSome unmarshal conn t final pending (input.length + 2) input
    [] c (by omega)
  obtain ⟨r, hr⟩ := Option.isSome_iff_exists.mp hsome
  exact ⟨r, hr, processLoop_handed_nonempty unmarshal conn t final pending _ input [] c r
    (fun f hf => absurd hf (List.not_mem_nil _)) hr⟩

/-- C16, at the stream `E2 8F 8E 01 E2 8F 8E 02`: one buffer closed by a delimiter
and one left at the end of the stream, neither empty. -/
theorem processMessages_handed_nonempty_witness :
    (scanLoop [] [226, 143, 142, 1, 226, 143, 142, 2]).exit = ScanExit.delimiter ∧
      (scanLoop [] [226, 143, 142, 1, 226, 143, 142, 2]).b ≠ [] ∧
      processMessages sampleUnmarshal 7 [] () [226, 143, 142, 1, 226, 143, 142, 2] none 0 =
        some ⟨[[226, 143, 142, 1], [2]],
          [⟨226, 7, ()⟩, ⟨143, 7, ()⟩, ⟨142, 7, ()⟩, ⟨1, 7, ()⟩, ⟨2, 7, ()⟩],
          Exit.emptyMessage, []⟩ :=
  ⟨by decide,
    (processMessages_handed_nonempty sampleUnmarshal 7 () none 0 []
      [] [] [226, 143, 142, 1, 226, 143, 142, 2] [] 0).2.1 (by decide),
    by decide⟩

/-- C17. Writer and reader, round trip. Assume the decoder inverts the encoder.
For units whose serialized envelope `E` has 1 to 65534 bytes and no prefix longer
than 3 bytes ending in `E2 8F 8E`, `writeMessage` applies `Write` once, to the
bytes `wire`, and returns its error and state. When those bytes are the stream of a
connection that ends with no read error pending (cleanly, or with an error returned
by a `Read` of its own), `processMessages` hands `E` alone to the decoder and
enqueues exactly those units, in order, each with the connection and the tracker,
after what the channel held; no byte is left unread. -/
theorem writeMessage_processMessages_round_trip {σ κ τ ε ω : Type}
    (marshal : List σ → Except ε (List Byte)) (unmarshal : List Byte → Except ε (List σ))
    (write : κ → List Byte → ω → (Nat × Option ε) × ω) (peer conn : κ) (t : τ)
    (final : Option ε) (pending : Nat) (c : List (signedConn σ κ τ)) (msgs : List σ) (w : ω)
    (E : List Byte)
    (hinv : ∀ us b, marshal us = Except.ok b → unmarshal b = Except.ok us)
    (hm : marshal msgs = Except.ok E) (h1 : 1 ≤ E.length) (h2 : E.length ≤ 65534)
    (hno : ∀ k, 3 < k → k ≤ E.length → (E.take k).drop (k - 3) ≠ breakBytes) :
    ∃ wire, wire = E ++ [226, 143, 142] ∧
      writeMessage marshal write peer msgs w =
        ((write peer wire w).1.2, (write peer wire w).2, [wire]) ∧
      ((final = none ∨ pending = 0) →
        processMessages unmarshal conn c t wire final pending =
          some ⟨[E], c ++ msgs.map (fun u => ⟨u, conn, t⟩),
            (match final with
              | some e => Exit.scanError e
              | none => Exit.emptyMessage), []⟩) := by
  refine ⟨E ++ breakBytes, rfl, writeMessage_ok marshal write peer msgs w E hm, ?_⟩
  exact processMessages_single_frame unmarshal conn t final pending c E msgs
    (framed_of_envelope E h1 h2 hno) (hinv msgs E hm)

theorem sample_inverse (us b : List Byte) (h : sampleMarshal us = Except.ok b) :
    sampleUnmarshal b = Except.ok us := by
  unfold sampleMarshal at h
  unfold sampleUnmarshal
  by_cases h0 : us.head? = some 0
  · rw [if_pos h0] at h; cases h
  · rw [if_neg h0] at h
    cases h
    rw [if_neg h0]

theorem sample_envelope_clean (k : Nat) (h3 : 3 < k) (hk : k ≤ [2, 3, 4, 5, 6].length) :
    ([2, 3, 4, 5, 6].take k).drop (k - 3) ≠ breakBytes := by
  have h : k = 4 ∨ k = 5 := by simp at hk; omega
  rcases h with rfl | rfl <;> decide

/-- C17, at the units `02 03 04 05 06` written to connection 4 and read back on
connection 7 from a stream that ends cleanly. -/
theorem writeMessage_processMessages_round_trip_witness :
    sampleMarshal [2, 3, 4, 5, 6] = Except.ok [2, 3, 4, 5, 6] ∧
      1 ≤ [2, 3, 4, 5, 6].length ∧ [2, 3, 4, 5, 6].length ≤ 65534 ∧
      writeMessage sampleMarshal sampleWrite 4 [2, 3, 4, 5, 6] [] =
        (none, [(4, [2, 3, 4, 5, 6, 226, 143, 142])], [[2, 3, 4, 5, 6, 226, 143, 142]]) ∧
      ∃ wire, wire = [2, 3, 4, 5, 6] ++ [226, 143, 142] ∧
        writeMessage sampleMarshal sampleWrite 4 [2, 3, 4, 5, 6] [] =
          ((sampleWrite 4 wire []).1.2, (sampleWrite 4 wire []).2, [wire]) ∧
        (((none : Option Nat) = none ∨ 8 = 0) →
          processMessages sampleUnmarshal 7 [] () wire none 8 =
            some ⟨[[2, 3, 4, 5, 6]], [] ++ [2, 3, 4, 5, 6].map (fun u => ⟨u, 7, ()⟩),
              Exit.emptyMessage, []⟩) :=
  ⟨rfl, by decide, by decide, by decide,
    writeMessage_processMessages_round_trip sampleMarshal sampleUnmarshal sampleWrite 4 7 ()
      none 8 [] [2, 3, 4, 5, 6] [] [2, 3, 4, 5, 6] sample_inverse rfl (by decide) (by decide)
      sample_envelope_clean⟩

/-- C18. On every finite stream `processMessages` stops with a result, and that
result is the one the outer loop reaches under any bound on its passes above the
length of the stream. Every pass of the outer loop, from any state, either leaves
the loop or goes on with strictly fewer bytes left to read; on the exhausted stream
the pass leaves the loop. -/
theorem processMessages_terminates {σ κ τ ε : Type}
    (unmarshal : List Byte → Except ε (List σ)) (conn : κ) (t : τ) (final : Option ε)
    (pending : Nat) (c : List (signedConn σ κ τ)) (input s : List Byte)
    (hd : List (List Byte)) :
    (∃ r, processMessages unmarshal conn c t input final pending = some r ∧
      ∀ n, input.length + 1 ≤ n →
        processLoop unmarshal conn t final pending n input [] c = some r) ∧
    ((∃ r, ∀ n, processLoop unmarshal conn t final pending (n + 1) s hd c = some r) ∨
      ((scanLoop [] s).rest.length < s.length ∧
        ∃ hd2 c2, ∀ n, processLoop unmarshal conn t final pending (n + 1) s hd c =
          processLoop unmarshal conn t final pending n (scanLoop [] s).rest hd2 c2)) ∧
    (∃ r, ∀ n, processLoop unmarshal conn t final pending (n + 1) [] hd c = some r) := by
  refine ⟨?_, processLoop_pass unmarshal conn t final pending s hd c,
    ⟨_, fun n => processLoop_nil unmarshal conn t final pending n hd c⟩⟩
  obtain ⟨r, hr⟩ := processLoop_result unmarshal conn t final pending input [] c
  exact ⟨r, hr _ (by omega), hr⟩

/-- C18, at the stream `01 E2 8F 8E 02`: a bound of 100 passes gives the result of
`processMessages`. -/
theorem processMessages_terminates_witness :
    processLoop sampleUnmarshal 7 () (some 5) 2 100 [1, 226, 143, 142, 2] [] [] =
      processMessages sampleUnmarshal 7 [] () [1, 226, 143, 142, 2] (some 5) 2 := by
  obtain ⟨r, h1, h2⟩ :=
    (processMessages_terminates sampleUnmarshal 7 () (some 5) 2 [] [1, 226, 143, 142, 2]
      [] []).1
  rw [h1]
  exact h2 100 (by decide)

end Server
